import Mathlib

/-!
Verification development for `src/callTraceStorage.cpp` (async-profiler's
call-trace store): a growable chain of open-addressed hash tables with
triangular probing, modelled here as a sequential shallow embedding.

Machine integers are modelled as `Nat` with explicit reduction modulo
`2^32` (`u32`) and `2^64` (`u64`) at the points where the C code computes
in those types.  Pointers into the arena are modelled as indices into a
list of allocated `CallTrace` records; the null pointer is `Option.none`.
Success or failure of the two external allocators (`OS::safeAlloc` for
tables, the chunked arena for traces) is an oracle `Bool` passed to `put`,
since those allocators live outside this translation unit.
-/

/-- 2^32, the modulus of the C type `u32`. -/
def U32 : Nat := 4294967296

/-- 2^64, the modulus of the C type `u64`. -/
def U64 : Nat := 18446744073709551616

/-- The constant `INITIAL_CAPACITY = 65536` from callTraceStorage.cpp. -/
def INITIAL_CAPACITY : Nat := 65536

/-- The MurmurHash64A multiplier `M = 0xc6a4a7935bd1e995`. -/
def M64 : Nat := 0xc6a4a7935bd1e995

/-- A stored call trace: `{ num_frames; frames[] }`.  Modelled from the spec:
`ASGCT_CallFrame` is declared outside this repository's sources, so a frame is
modelled, as the spec's test-input convention prescribes, as one opaque
8-byte little-endian word (a `Nat` below `2^64`). -/
structure CallTrace where
  num_frames : Nat
  frames : List Nat
deriving DecidableEq, Repr

/-- One `LongHashTable`: capacity (a u32), the parallel `keys` / `values`
arrays (modelled as total functions from slot index; unused indices are
irrelevant), and the `size` counter.  The `prev` pointer is represented by
the position of the table in the storage's list of tables. -/
structure LongHashTable where
  capacity : Nat
  keys : Nat → Nat
  values : Nat → Option Nat
  size : Nat

/-- The whole `CallTraceStorage`: the chain of tables, newest (current) first,
oldest (the `prev = NULL` tail) last, plus the arena of allocated traces.
An arena "pointer" is an index into `arena`. -/
structure CallTraceStorage where
  tables : List LongHashTable
  arena : List CallTrace

/-- The u32 value of `capacity - 1`, the probe mask (wraps to `0xFFFFFFFF`
when `capacity = 0`). -/
def maskOf (cap : Nat) : Nat := (cap + (U32 - 1)) % U32

/-- MurmurHash64A as in `CallTraceStorage::calcHash`: one mixing round for
one 8-byte word of input. -/
def mixStep (h k : Nat) : Nat :=
  let k1 := k * M64 % U64
  let k2 := k1 ^^^ (k1 >>> 47)
  let k3 := k2 * M64 % U64
  (h ^^^ k3) * M64 % U64

/-- `CallTraceStorage::calcHash`.  Modelled from the spec for the part that
depends on the (missing) frame layout: each frame is one 8-byte word, so
`len = 8 * num_frames`, the word loop consumes exactly `num_frames` words and
the `len & 4` tail is never taken.  Reading past the end of a short frame
list yields 0 for the out-of-range words. -/
def calcHash (num_frames : Nat) (frames : List Nat) : Nat :=
  let len := num_frames * 8
  let h0 := len * M64 % U64
  let h1 := ((List.range num_frames).map (fun i => frames.getD i 0)).foldl mixStep h0
  let h2 := (h1 ^^^ (h1 >>> 47)) * M64 % U64
  h2 ^^^ (h2 >>> 47)

/-- Result of the shared probe loop of `findCallTrace` and `put`:
the key at the probed slot equals the hash (`hit`), the probed slot is
empty and may be claimed (`claim`), or `capacity` steps were exhausted
(`overflow`). -/
inductive ProbeResult where
  | hit (slot : Nat)
  | claim (slot : Nat)
  | overflow
deriving DecidableEq, Repr

/-- The probe loop shared by `CallTraceStorage::findCallTrace` and
`CallTraceStorage::put`:

    while (keys[slot] != hash) {
      if (keys[slot] == 0) ...            -- empty: stop (NULL / CAS-claim)
      if (++step >= capacity) ...         -- overflow: stop (NULL / return 0)
      slot = (slot + step) & (capacity - 1);
    }

`fuel` is `capacity - step`; the loop body runs at most `capacity` times. -/
def probeGo (keys : Nat → Nat) (cap hash : Nat) : Nat → Nat → Nat → ProbeResult
  | 0, _, _ => ProbeResult.overflow
  | fuel + 1, slot, step =>
    if keys slot = hash then ProbeResult.hit slot
    else if keys slot = 0 then ProbeResult.claim slot
    else if step + 1 ≥ cap then ProbeResult.overflow
    else probeGo keys cap hash fuel ((slot + (step + 1)) &&& maskOf cap) (step + 1)

/-- Entry point of the probe loop: start at `hash & (capacity - 1)` with
step 0. -/
def probe (keys : Nat → Nat) (cap hash : Nat) : ProbeResult :=
  probeGo keys cap hash cap (hash &&& maskOf cap) 0

/-- The sequence of slots the probe loop visits: `probePos c h 0` is the
initial slot and each step `j+1` advances by `j+1`, masked. -/
def probePos (cap hash : Nat) : Nat → Nat
  | 0 => hash &&& maskOf cap
  | j + 1 => (probePos cap hash j + (j + 1)) &&& maskOf cap

/-- `CallTraceStorage::findCallTrace`: probe; on a key hit return the stored
value pointer (which may itself be null), otherwise return null. -/
def findCallTrace (t : LongHashTable) (hash : Nat) : Option Nat :=
  match probe t.keys t.capacity hash with
  | ProbeResult.hit slot => t.values slot
  | _ => none

/-- `CallTraceStorage::storeCallTrace`: allocate a `CallTrace` from the arena
(the oracle `ok` tells whether the arena allocation succeeds), set
`num_frames`, and copy the frames element by element.  Returns the pointer
(index) or null, together with the new arena. -/
def storeCallTrace (arena : List CallTrace) (ok : Bool) (num_frames : Nat)
    (frames : List Nat) : Option Nat × List CallTrace :=
  if ok then
    (some arena.length,
     arena ++ [⟨num_frames, (List.range num_frames).map (fun i => frames.getD i 0)⟩])
  else (none, arena)

/-- The ID formula `capacity - (INITIAL_CAPACITY - 1) + slot`, computed in
u32 arithmetic (the subtraction wraps modulo `2^32`). -/
def idFor (cap slot : Nat) : Nat :=
  (cap + (U32 - (INITIAL_CAPACITY - 1)) + slot) % U32

/-- A freshly allocated table of the given capacity: zeroed keys and values,
size 0 (`OS::safeAlloc` returns zero-filled pages). -/
def freshTable (cap : Nat) : LongHashTable :=
  { capacity := cap, keys := fun _ => 0, values := fun _ => none, size := 0 }

/-- `CallTraceStorage::put` given the already-computed hash (the body of
`put` after the `calcHash` call).  Sequential semantics: the key CAS always
succeeds, so a `claim` outcome writes the hash, bumps `size` (u32), attempts
growth when the new size is exactly `capacity * 3 / 4` (u32 arithmetic;
`growOk` is the table-allocation oracle), inherits the trace pointer from the
predecessor table if it has one, otherwise allocates from the arena
(`arenaOk` oracle), publishes the value, and returns the slot's ID. -/
def CallTraceStorage.putHash (s : CallTraceStorage) (hash : Nat)
    (growOk arenaOk : Bool) (num_frames : Nat) (frames : List Nat) :
    Nat × CallTraceStorage :=
  match s.tables with
  | [] => (0, s)
  | t :: rest =>
    match probe t.keys t.capacity hash with
    | ProbeResult.overflow => (0, s)
    | ProbeResult.hit slot => (idFor t.capacity slot, s)
    | ProbeResult.claim slot =>
      let newSize := (t.size + 1) % U32
      let inherited : Option Nat :=
        match rest with
        | [] => none
        | p :: _ => findCallTrace p hash
      let stored : Option Nat × List CallTrace :=
        match inherited with
        | some ptr => (some ptr, s.arena)
        | none => storeCallTrace s.arena arenaOk num_frames frames
      let t' : LongHashTable :=
        { capacity := t.capacity,
          keys := fun j => if j = slot then hash else t.keys j,
          values := fun j => if j = slot then stored.1 else t.values j,
          size := newSize }
      let tables' :=
        if growOk ∧ newSize = t.capacity * 3 % U32 / 4 then
          freshTable (t.capacity * 2 % U32) :: t' :: rest
        else t' :: rest
      (idFor t.capacity slot, { tables := tables', arena := stored.2 })

/-- `CallTraceStorage::put`: hash the trace, then insert. -/
def CallTraceStorage.put (s : CallTraceStorage) (growOk arenaOk : Bool)
    (num_frames : Nat) (frames : List Nat) : Nat × CallTraceStorage :=
  s.putHash (calcHash num_frames frames) growOk arenaOk num_frames frames

/-- Insert-or-assign into the ordered map `std::map<u32, CallTrace*>`,
modelled as an association list with pairwise-distinct keys:
`map[k] = v` overwrites an existing binding of `k` and appends otherwise. -/
def mapAssign (m : List (Nat × Option Nat)) (k : Nat) (v : Option Nat) :
    List (Nat × Option Nat) :=
  match m with
  | [] => [(k, v)]
  | (k', v') :: rest =>
    if k' = k then (k, v) :: rest else (k', v') :: mapAssign rest k v

/-- The inner loop of `CallTraceStorage::collect` for one table: for every
slot with a non-zero key, assign `map[capacity - (INITIAL_CAPACITY-1) + slot]
= values[slot]`, slots in increasing order. -/
def collectTable (m : List (Nat × Option Nat)) (t : LongHashTable) :
    List (Nat × Option Nat) :=
  (List.range t.capacity).foldl
    (fun m slot =>
      if t.keys slot ≠ 0 then mapAssign m (idFor t.capacity slot) (t.values slot)
      else m) m

/-- `CallTraceStorage::collect`: walk the chain from the current table to the
tail, filling the output map. -/
def CallTraceStorage.collect (s : CallTraceStorage) : List (Nat × Option Nat) :=
  s.tables.foldl collectTable []

/-- A zeroed copy of a table (`LongHashTable::clear`: memset of both arrays
and `size = 0`). -/
def clearTable (t : LongHashTable) : LongHashTable :=
  { capacity := t.capacity, keys := fun _ => 0, values := fun _ => none, size := 0 }

/-- `CallTraceStorage::clear`: destroy every table except the tail
(`prev == NULL`) one, zero that table, and clear the arena. -/
def CallTraceStorage.clear (s : CallTraceStorage) : CallTraceStorage :=
  match s.tables.getLast? with
  | some t => { tables := [clearTable t], arena := [] }
  | none => { tables := [], arena := [] }

/-- The storage as built by the `CallTraceStorage` constructor (with the
initial table allocation succeeding): one zeroed table of capacity
`INITIAL_CAPACITY`, empty arena. -/
def initialStorage : CallTraceStorage :=
  { tables := [freshTable INITIAL_CAPACITY], arena := [] }

/-- One recorded `put` call of a sequential execution: the allocation
oracles and the trace argument. -/
structure PutCall where
  growOk : Bool
  arenaOk : Bool
  num_frames : Nat
  frames : List Nat
deriving DecidableEq, Repr

/-- Run a sequence of `put` calls; returns the final storage and the list of
returned IDs, in call order. -/
def runPuts (s : CallTraceStorage) : List PutCall → CallTraceStorage × List Nat
  | [] => (s, [])
  | c :: cs =>
    let r := s.put c.growOk c.arenaOk c.num_frames c.frames
    let rest := runPuts r.2 cs
    (rest.1, r.1 :: rest.2)

/-- The chain-of-capacities invariant: the capacity list (current table
first) ends at `INITIAL_CAPACITY` and each table's capacity is twice its
predecessor's; every capacity fits a u32 (head at most `2^31`). -/
def goodCaps : List Nat → Bool
  | [] => false
  | [c] => c == INITIAL_CAPACITY
  | c :: c' :: rest => c == 2 * c' && Nat.ble c 2147483648 && goodCaps (c' :: rest)

/-- Well-formedness of a storage's chain: `goodCaps` of its capacities. -/
def CallTraceStorage.wf (s : CallTraceStorage) : Bool :=
  goodCaps (s.tables.map (fun t => t.capacity))

/-- Chain shape after the unreachable-in-practice u32 capacity overflow: a
zero-capacity table may sit in front of a good chain (see the analysis of
growth from capacity `2^31`). -/
def wfCapsW (l : List Nat) : Bool :=
  goodCaps l ||
    (match l with
     | 0 :: rest => goodCaps rest
     | _ => false)


/-! ### Probe-sequence machinery -/

/-- The j-th triangular number `j (j+1) / 2`. -/
def tri (j : Nat) : Nat := j * (j + 1) / 2


theorem two_mul_tri (j : Nat) : 2 * tri j = j * (j + 1) :=
  Nat.mul_div_cancel' (Nat.even_mul_succ_self j).two_dvd

theorem tri_succ (j : Nat) : tri (j + 1) = tri j + (j + 1) := by
  have h2 : 2 * tri (j + 1) = 2 * (tri j + (j + 1)) := by
    rw [Nat.mul_add, two_mul_tri, two_mul_tri]; ring
  exact Nat.eq_of_mul_eq_mul_left (by omega) h2

theorem U32_eq : U32 = 2 ^ 32 := by decide

theorem maskOf_eq {cap : Nat} (h1 : 1 ≤ cap) (h2 : cap ≤ U32) :
    maskOf cap = cap - 1 := by
  have hU : U32 = 4294967296 := rfl
  unfold maskOf
  have h3 : cap + (U32 - 1) = (cap - 1) + U32 := by omega
  rw [h3, Nat.add_mod_right, Nat.mod_eq_of_lt (by omega)]

theorem and_maskOf_pow {m : Nat} (hm : m ≤ 32) (x : Nat) :
    x &&& maskOf (2 ^ m) = x % 2 ^ m := by
  rw [maskOf_eq Nat.one_le_two_pow (by rw [U32_eq]; exact Nat.pow_le_pow_right (by omega) hm)]
  exact Nat.and_pow_two_sub_one_eq_mod x m

theorem probePos_closed {m : Nat} (hm : m ≤ 32) (hash : Nat) (j : Nat) :
    probePos (2 ^ m) hash j = (hash % 2 ^ m + tri j) % 2 ^ m := by
  induction j with
  | zero =>
    show hash &&& maskOf (2 ^ m) = _
    rw [and_maskOf_pow hm]
    simp [tri]
  | succ j ih =>
    show (probePos (2 ^ m) hash j + (j + 1)) &&& maskOf (2 ^ m) = _
    rw [and_maskOf_pow hm, ih, tri_succ, Nat.mod_add_mod, Nat.add_assoc]

theorem probePos_lt {m : Nat} (hm : m ≤ 32) (hash j : Nat) :
    probePos (2 ^ m) hash j < 2 ^ m := by
  rw [probePos_closed hm]
  exact Nat.mod_lt _ (Nat.pos_pow_of_pos _ (by omega))

/-- Distinctness of the triangular probe offsets modulo a power of two. -/
theorem tri_mod_pow_two_ne {m i j : Nat} (hi : i < 2 ^ m) (hj : j < 2 ^ m)
    (hij : i ≠ j) (a : Nat) : (a + tri i) % 2 ^ m ≠ (a + tri j) % 2 ^ m := by
  wlog hlt : i < j generalizing i j
  · exact (this hj hi (Ne.symm hij) (by omega)).symm
  intro heq
  have hmod : (a + tri i) ≡ (a + tri j) [MOD 2 ^ m] := heq
  have htri : tri i ≡ tri j [MOD 2 ^ m] := Nat.ModEq.add_left_cancel' a hmod
  have hle : tri i ≤ tri j :=
    Nat.div_le_div_right (Nat.mul_le_mul (by omega) (by omega))
  have hdvd : 2 ^ m ∣ tri j - tri i := (Nat.modEq_iff_dvd' hle).mp htri
  have key : 2 * tri j = 2 * tri i + (j - i) * (i + j + 1) := by
    obtain ⟨d, rfl⟩ := Nat.exists_eq_add_of_lt hlt
    rw [two_mul_tri, two_mul_tri]
    have hd : i + d + 1 - i = d + 1 := by omega
    rw [hd]; ring
  have hP : (j - i) * (i + j + 1) = 2 * (tri j - tri i) := by
    set A := tri i
    set B := tri j
    set P := (j - i) * (i + j + 1)
    omega
  have hdvd2 : 2 ^ (m + 1) ∣ (j - i) * (i + j + 1) := by
    rw [hP, Nat.pow_succ, Nat.mul_comm (2 ^ m) 2]
    exact Nat.mul_dvd_mul_left 2 hdvd
  have hdlt : j - i < 2 ^ (m + 1) := by
    have h2 : 2 ^ m < 2 ^ (m + 1) := by rw [Nat.pow_succ]; omega
    omega
  have hslt : i + j + 1 < 2 ^ (m + 1) := by rw [Nat.pow_succ]; omega
  have hparity : (j - i) % 2 = 1 ∨ (i + j + 1) % 2 = 1 := by omega
  cases hparity with
  | inl hodd =>
    have hcop : Nat.Coprime (2 ^ (m + 1)) (j - i) :=
      Nat.Coprime.pow_left _ (Nat.coprime_two_left.mpr (Nat.odd_iff.mpr hodd))
    have hdvds : 2 ^ (m + 1) ∣ i + j + 1 :=
      (Nat.Coprime.dvd_mul_left hcop).mp hdvd2
    exact absurd (Nat.le_of_dvd (by omega) hdvds) (by omega)
  | inr hodd =>
    have hcop : Nat.Coprime (2 ^ (m + 1)) (i + j + 1) :=
      Nat.Coprime.pow_left _ (Nat.coprime_two_left.mpr (Nat.odd_iff.mpr hodd))
    have hdvds : 2 ^ (m + 1) ∣ j - i :=
      (Nat.Coprime.dvd_mul_right hcop).mp hdvd2
    exact absurd (Nat.le_of_dvd (by omega) hdvds) (by omega)

/-- The first `capacity` probe positions are pairwise distinct. -/
theorem probePos_injOn {m : Nat} (hm : m ≤ 32) (hash : Nat) {i j : Nat}
    (hi : i < 2 ^ m) (hj : j < 2 ^ m) (hij : i ≠ j) :
    probePos (2 ^ m) hash i ≠ probePos (2 ^ m) hash j := by
  rw [probePos_closed hm, probePos_closed hm]
  exact tri_mod_pow_two_ne hi hj hij _

/-- The probe sequence visits every slot of a power-of-two table. -/
theorem probePos_surjOn {m : Nat} (hm : m ≤ 32) (hash : Nat) {t : Nat}
    (ht : t < 2 ^ m) : ∃ k, k < 2 ^ m ∧ probePos (2 ^ m) hash k = t := by
  classical
  let f : Fin (2 ^ m) → Fin (2 ^ m) :=
    fun k => ⟨probePos (2 ^ m) hash k.1, probePos_lt hm hash k.1⟩
  have hinj : Function.Injective f := by
    intro a b hab
    by_contra hne
    exact probePos_injOn hm hash a.2 b.2 (fun h => hne (Fin.ext h))
      (congrArg Fin.val hab)
  obtain ⟨k, hk⟩ := Finite.surjective_of_injective hinj ⟨t, ht⟩
  exact ⟨k.1, k.2, congrArg Fin.val hk⟩

/-- If from step `step` on no probed slot holds the hash or is empty, the
loop runs out of steps and reports overflow. -/
theorem probeGo_overflow (keys : Nat → Nat) (cap hash : Nat) :
    ∀ fuel step, fuel + step = cap →
    (∀ j, step ≤ j → j < cap → keys (probePos cap hash j) ≠ hash ∧
      keys (probePos cap hash j) ≠ 0) →
    probeGo keys cap hash fuel (probePos cap hash step) step =
      ProbeResult.overflow := by
  intro fuel
  induction fuel with
  | zero => intro step _ _; rfl
  | succ fuel ih =>
    intro step hfs h
    have hstep : step < cap := by omega
    obtain ⟨hne, hnz⟩ := h step (Nat.le_refl _) hstep
    show probeGo keys cap hash (fuel + 1) (probePos cap hash step) step = _
    rw [probeGo, if_neg hne, if_neg hnz]
    by_cases hc : step + 1 ≥ cap
    · rw [if_pos hc]
    · rw [if_neg hc]
      have : (probePos cap hash step + (step + 1)) &&& maskOf cap =
          probePos cap hash (step + 1) := rfl
      rw [this]
      exact ih (step + 1) (by omega) (fun j hj hjc => h j (by omega) hjc)

/-- If `j0` is the first index at or after `step` whose probed slot holds the
hash or is empty, the loop stops exactly there, with a hit or a claim. -/
theorem probeGo_found (keys : Nat → Nat) (cap hash : Nat) (j0 : Nat)
    (hj0c : j0 < cap)
    (hmatch : keys (probePos cap hash j0) = hash ∨ keys (probePos cap hash j0) = 0) :
    ∀ fuel step, fuel + step = cap → step ≤ j0 →
    (∀ j, step ≤ j → j < j0 → keys (probePos cap hash j) ≠ hash ∧
      keys (probePos cap hash j) ≠ 0) →
    probeGo keys cap hash fuel (probePos cap hash step) step =
      (if keys (probePos cap hash j0) = hash then
        ProbeResult.hit (probePos cap hash j0)
      else ProbeResult.claim (probePos cap hash j0)) := by
  intro fuel
  induction fuel with
  | zero => intro step hfs hsj _; omega
  | succ fuel ih =>
    intro step hfs hsj hmin
    show probeGo keys cap hash (fuel + 1) (probePos cap hash step) step = _
    rw [probeGo]
    by_cases hh : keys (probePos cap hash step) = hash
    · have hj0 : j0 = step := by
        by_contra hne
        exact (hmin step (Nat.le_refl _) (by omega)).1 hh
      subst hj0
      rw [if_pos hh, if_pos hh]
    · rw [if_neg hh]
      by_cases hz : keys (probePos cap hash step) = 0
      · have hj0 : j0 = step := by
          by_contra hne
          exact (hmin step (Nat.le_refl _) (by omega)).2 hz
        subst hj0
        rw [if_pos hz, if_neg hh]
      · rw [if_neg hz]
        have hj0ne : step ≠ j0 := by
          intro h; subst h; rcases hmatch with h | h
          · exact hh h
          · exact hz h
        have hlt : step + 1 ≤ j0 := by omega
        have hc : ¬ step + 1 ≥ cap := by omega
        rw [if_neg hc]
        have heq : (probePos cap hash step + (step + 1)) &&& maskOf cap =
            probePos cap hash (step + 1) := rfl
        rw [heq]
        exact ih (step + 1) (by omega) hlt (fun j hj hjc => hmin j (by omega) hjc)

/-- Full-table unsuccessful probe: if no slot at all holds the hash or is
empty, the probe reports overflow. -/
theorem probe_overflow_of_none {m : Nat} (hm : m ≤ 32) (keys : Nat → Nat)
    (hash : Nat)
    (h : ∀ s, s < 2 ^ m → keys s ≠ hash ∧ keys s ≠ 0) :
    probe keys (2 ^ m) hash = ProbeResult.overflow := by
  have h0 : probePos (2 ^ m) hash 0 = hash &&& maskOf (2 ^ m) := rfl
  rw [probe, ← h0]
  exact probeGo_overflow keys (2 ^ m) hash (2 ^ m) 0 (by omega)
    (fun j _ _ => h _ (probePos_lt hm hash j))

/-- Minimal-first-match description of a probe run. -/
theorem probe_found {cap : Nat} (hcap : 1 ≤ cap) (keys : Nat → Nat)
    (hash : Nat) (j0 : Nat) (hj0c : j0 < cap)
    (hmatch : keys (probePos cap hash j0) = hash ∨ keys (probePos cap hash j0) = 0)
    (hmin : ∀ j, j < j0 → keys (probePos cap hash j) ≠ hash ∧
      keys (probePos cap hash j) ≠ 0) :
    probe keys cap hash =
      (if keys (probePos cap hash j0) = hash then
        ProbeResult.hit (probePos cap hash j0)
      else ProbeResult.claim (probePos cap hash j0)) := by
  have h0 : probePos cap hash 0 = hash &&& maskOf cap := rfl
  rw [probe, ← h0]
  exact probeGo_found keys cap hash j0 hj0c hmatch cap 0 (by omega) (by omega)
    (fun j _ hj => hmin j hj)

/-- Inversion: every probe run is either a full-scan overflow or stops at
the minimal matching probe index. -/
theorem probe_cases {m : Nat} (hm : m ≤ 32) (keys : Nat → Nat) (hash : Nat) :
    (probe keys (2 ^ m) hash = ProbeResult.overflow ∧
      ∀ s, s < 2 ^ m → keys s ≠ hash ∧ keys s ≠ 0) ∨
    (∃ j0, j0 < 2 ^ m ∧
      (∀ j, j < j0 → keys (probePos (2 ^ m) hash j) ≠ hash ∧
        keys (probePos (2 ^ m) hash j) ≠ 0) ∧
      ((keys (probePos (2 ^ m) hash j0) = hash ∧
          probe keys (2 ^ m) hash = ProbeResult.hit (probePos (2 ^ m) hash j0)) ∨
        (keys (probePos (2 ^ m) hash j0) ≠ hash ∧
          keys (probePos (2 ^ m) hash j0) = 0 ∧
          probe keys (2 ^ m) hash = ProbeResult.claim (probePos (2 ^ m) hash j0)))) := by
  by_cases hex : ∃ j, j < 2 ^ m ∧ (keys (probePos (2 ^ m) hash j) = hash ∨
      keys (probePos (2 ^ m) hash j) = 0)
  · right
    refine ⟨Nat.find hex, (Nat.find_spec hex).1, ?_, ?_⟩
    · intro j hj
      have hnp := Nat.find_min hex hj
      have hjc : j < 2 ^ m := by
        have := (Nat.find_spec hex).1
        omega
      constructor
      · intro hc; exact hnp ⟨hjc, Or.inl hc⟩
      · intro hc; exact hnp ⟨hjc, Or.inr hc⟩
    · have hrun := probe_found Nat.one_le_two_pow keys hash (Nat.find hex)
        (Nat.find_spec hex).1 (Nat.find_spec hex).2
        (fun j hj => by
          have hnp := Nat.find_min hex hj
          have hjc : j < 2 ^ m := by
            have := (Nat.find_spec hex).1
            omega
          exact ⟨fun hc => hnp ⟨hjc, Or.inl hc⟩, fun hc => hnp ⟨hjc, Or.inr hc⟩⟩)
      by_cases hh : keys (probePos (2 ^ m) hash (Nat.find hex)) = hash
      · left
        exact ⟨hh, by rw [hrun, if_pos hh]⟩
      · right
        rcases (Nat.find_spec hex).2 with h | h
        · exact absurd h hh
        · exact ⟨hh, h, by rw [hrun, if_neg hh]⟩
  · left
    push_neg at hex
    have hall : ∀ s, s < 2 ^ m → keys s ≠ hash ∧ keys s ≠ 0 := by
      intro s hs
      obtain ⟨k, hk, hks⟩ := probePos_surjOn hm hash hs
      have hthis := hex k hk
      rw [hks] at hthis
      exact hthis
    exact ⟨probe_overflow_of_none hm keys hash hall, hall⟩

/-- A hit slot holds the hash. -/
theorem probe_hit_inv {m : Nat} (hm : m ≤ 32) {keys : Nat → Nat} {hash slot : Nat}
    (h : probe keys (2 ^ m) hash = ProbeResult.hit slot) :
    keys slot = hash ∧ slot < 2 ^ m := by
  rcases probe_cases hm keys hash with ⟨ho, _⟩ | ⟨j0, hj0, _, hcase⟩
  · rw [h] at ho; exact absurd ho (by intro hc; cases hc)
  · rcases hcase with ⟨hk, hp⟩ | ⟨_, _, hp⟩
    · rw [h] at hp
      cases hp
      exact ⟨hk, probePos_lt hm hash j0⟩
    · rw [h] at hp; cases hp

/-- A claimed slot was empty, and a claim only happens for a non-zero hash. -/
theorem probe_claim_inv {m : Nat} (hm : m ≤ 32) {keys : Nat → Nat} {hash slot : Nat}
    (h : probe keys (2 ^ m) hash = ProbeResult.claim slot) :
    keys slot = 0 ∧ slot < 2 ^ m ∧ hash ≠ 0 := by
  rcases probe_cases hm keys hash with ⟨ho, _⟩ | ⟨j0, hj0, _, hcase⟩
  · rw [h] at ho; exact absurd ho (by intro hc; cases hc)
  · rcases hcase with ⟨_, hp⟩ | ⟨hne, hz, hp⟩
    · rw [h] at hp; cases hp
    · rw [h] at hp
      cases hp
      exact ⟨hz, probePos_lt hm hash j0, fun hc => hne (by rw [hz, hc])⟩

/-- A fresh non-zero hash probed in a table that still has an empty slot is
claimed (not hit, no overflow). -/
theorem probe_fresh_claims {m : Nat} (hm : m ≤ 32) {keys : Nat → Nat} {hash : Nat}
    (hfresh : ∀ s, s < 2 ^ m → keys s ≠ hash)
    (hempty : ∃ s, s < 2 ^ m ∧ keys s = 0) :
    ∃ slot, slot < 2 ^ m ∧ keys slot = 0 ∧
      probe keys (2 ^ m) hash = ProbeResult.claim slot := by
  rcases probe_cases hm keys hash with ⟨_, hall⟩ | ⟨j0, hj0, _, hcase⟩
  · obtain ⟨s, hs, hz⟩ := hempty
    exact absurd hz (hall s hs).2
  · rcases hcase with ⟨hk, _⟩ | ⟨_, hz, hp⟩
    · exact absurd hk (hfresh _ (probePos_lt hm hash j0))
    · exact ⟨_, probePos_lt hm hash j0, hz, hp⟩

/-! ### The capacity chain -/

/-- The canonical capacity chain of length `n`:
`[65536 * 2^(n-1), ..., 131072, 65536]`. -/
def capsList : Nat → List Nat
  | 0 => []
  | n + 1 => (INITIAL_CAPACITY * 2 ^ n) :: capsList n

theorem U32_val : U32 = 4294967296 := rfl

theorem IC_val : INITIAL_CAPACITY = 65536 := rfl

theorem capsList_length (n : Nat) : (capsList n).length = n := by
  induction n with
  | zero => rfl
  | succ n ih => simp [capsList, ih]

/-- `goodCaps` holds exactly of the canonical chains of length 1 to 16. -/
theorem goodCaps_iff (l : List Nat) :
    goodCaps l = true ↔ ∃ n, 1 ≤ n ∧ n ≤ 16 ∧ l = capsList n := by
  constructor
  · intro h
    induction l with
    | nil => cases h
    | cons c rest ih =>
      cases rest with
      | nil =>
        have hc : c = INITIAL_CAPACITY := by
          have := h
          simp [goodCaps] at this
          exact this
        exact ⟨1, by omega, by omega, by
          simp [capsList, hc, IC_val]⟩
      | cons c' rest' =>
        have hcc : c = 2 * c' ∧ c ≤ 2147483648 ∧ goodCaps (c' :: rest') = true := by
          have := h
          simp [goodCaps] at this
          exact ⟨this.1.1, this.1.2, this.2⟩
        obtain ⟨n, hn1, hn16, heq⟩ := ih hcc.2.2
        have hn1' : capsList n = c' :: rest' := heq.symm
        have hc'val : c' = INITIAL_CAPACITY * 2 ^ (n - 1) := by
          cases n with
          | zero => omega
          | succ k =>
            simp [capsList] at hn1'
            have := hn1'.1
            simp [this]
        refine ⟨n + 1, by omega, ?_, ?_⟩
        · have hcval : c = INITIAL_CAPACITY * 2 ^ n := by
            rw [hcc.1, hc'val, IC_val]
            cases n with
            | zero => omega
            | succ k =>
              simp [IC_val]
              ring
          rw [hcval, IC_val] at hcc
          have hle := hcc.2.1
          by_contra hgt
          have hn15 : 16 ≤ n := by omega
          have : 2 ^ 16 ≤ 2 ^ n := Nat.pow_le_pow_right (by omega) hn15
          have : 65536 * 2 ^ 16 ≤ 65536 * 2 ^ n := by
            exact Nat.mul_le_mul_left _ this
          omega
        · have hcval : c = INITIAL_CAPACITY * 2 ^ n := by
            rw [hcc.1, hc'val, IC_val]
            cases n with
            | zero => omega
            | succ k =>
              simp [IC_val]
              ring
          simp [capsList, hcval, heq]
  · rintro ⟨n, hn1, hn16, rfl⟩
    induction n with
    | zero => omega
    | succ k ih =>
      cases k with
      | zero => decide
      | succ k' =>
        have hk : goodCaps (capsList (k' + 1)) = true := ih (by omega) (by omega)
        show goodCaps ((INITIAL_CAPACITY * 2 ^ (k' + 1)) ::
          (INITIAL_CAPACITY * 2 ^ k') :: capsList k') = true
        simp only [goodCaps]
        rw [Bool.and_eq_true, Bool.and_eq_true]
        refine ⟨⟨?_, ?_⟩, ?_⟩
        · simp [IC_val]
          ring
        · apply Nat.ble_eq_true_of_le
          have hpow : 2 ^ (k' + 1) ≤ 2 ^ 15 :=
            Nat.pow_le_pow_right (by omega) (by omega)
          have := Nat.mul_le_mul_left 65536 hpow
          simp [IC_val]
          omega
        · exact hk

/-- Every capacity in a good chain is a power of two between `2^16` and
`2^31`. -/
theorem goodCaps_mem {l : List Nat} (h : goodCaps l = true) {c : Nat}
    (hc : c ∈ l) : ∃ m, 16 ≤ m ∧ m ≤ 31 ∧ c = 2 ^ m := by
  obtain ⟨n, hn1, hn16, rfl⟩ := (goodCaps_iff l).mp h
  clear h hn1
  induction n with
  | zero => cases hc
  | succ k ih =>
    rcases List.mem_cons.mp hc with rfl | hmem
    · refine ⟨16 + k, by omega, by omega, ?_⟩
      rw [IC_val, Nat.pow_add]
    · exact ih (by omega) hmem

/-! ### ID arithmetic -/

/-- For chain capacities the u32 subtraction in the ID formula does not
wrap: the ID is plainly `capacity - (INITIAL_CAPACITY - 1) + slot`. -/
theorem idFor_eval {cap slot : Nat} (h1 : 65536 ≤ cap) (h2 : cap ≤ 2147483648)
    (h3 : slot < cap) : idFor cap slot = cap - 65535 + slot := by
  simp only [idFor, U32_val, IC_val]
  omega

theorem idFor_pos {cap slot : Nat} (h1 : 65536 ≤ cap) (h2 : cap ≤ 2147483648)
    (h3 : slot < cap) : 1 ≤ idFor cap slot := by
  rw [idFor_eval h1 h2 h3]; omega

theorem idFor_bounds {cap slot : Nat} (h1 : 65536 ≤ cap) (h2 : cap ≤ 2147483648)
    (h3 : slot < cap) :
    cap - 65535 ≤ idFor cap slot ∧ idFor cap slot ≤ 2 * cap - 65536 := by
  rw [idFor_eval h1 h2 h3]; omega

/-- IDs issued by one table are injective in the slot. -/
theorem idFor_inj {cap s1 s2 : Nat} (h1 : 65536 ≤ cap) (h2 : cap ≤ 2147483648)
    (hs1 : s1 < cap) (hs2 : s2 < cap) (hne : s1 ≠ s2) :
    idFor cap s1 ≠ idFor cap s2 := by
  rw [idFor_eval h1 h2 hs1, idFor_eval h1 h2 hs2]; omega

/-- IDs issued by tables of different chain capacities are distinct: the ID
ranges of a capacity and of one at least twice as large are disjoint. -/
theorem idFor_ne_of_lt_cap {c1 s1 c2 s2 : Nat} (h1 : 65536 ≤ c1)
    (hdouble : 2 * c1 ≤ c2) (h2 : c2 ≤ 2147483648)
    (hs1 : s1 < c1) (hs2 : s2 < c2) : idFor c1 s1 ≠ idFor c2 s2 := by
  rw [idFor_eval h1 (by omega) hs1, idFor_eval (by omega) h2 hs2]; omega

/-! ### Unfolding lemmas for put -/

theorem putHash_overflow {s : CallTraceStorage} {t : LongHashTable}
    {rest : List LongHashTable} {hash : Nat} {g a : Bool} {nf : Nat}
    {fr : List Nat} (hs : s.tables = t :: rest)
    (hp : probe t.keys t.capacity hash = ProbeResult.overflow) :
    s.putHash hash g a nf fr = (0, s) := by
  unfold CallTraceStorage.putHash
  rw [hs]
  simp only [hp]

theorem putHash_hit {s : CallTraceStorage} {t : LongHashTable}
    {rest : List LongHashTable} {hash slot : Nat} {g a : Bool} {nf : Nat}
    {fr : List Nat} (hs : s.tables = t :: rest)
    (hp : probe t.keys t.capacity hash = ProbeResult.hit slot) :
    s.putHash hash g a nf fr = (idFor t.capacity slot, s) := by
  unfold CallTraceStorage.putHash
  rw [hs]
  simp only [hp]

/-- The value-and-arena pair produced by the claim path of `put`. -/
def claimStored (s : CallTraceStorage) (rest : List LongHashTable) (hash : Nat)
    (arenaOk : Bool) (nf : Nat) (fr : List Nat) : Option Nat × List CallTrace :=
  match rest with
  | [] => storeCallTrace s.arena arenaOk nf fr
  | p :: _ =>
    match findCallTrace p hash with
    | some ptr => (some ptr, s.arena)
    | none => storeCallTrace s.arena arenaOk nf fr

/-- The updated head table produced by the claim path of `put`. -/
def claimedTable (t : LongHashTable) (slot hash : Nat) (v : Option Nat) :
    LongHashTable :=
  { capacity := t.capacity,
    keys := fun j => if j = slot then hash else t.keys j,
    values := fun j => if j = slot then v else t.values j,
    size := (t.size + 1) % U32 }

theorem putHash_claim {s : CallTraceStorage} {t : LongHashTable}
    {rest : List LongHashTable} {hash slot : Nat} {g a : Bool} {n : Nat}
    {f : List Nat} (hs : s.tables = t :: rest)
    (hp : probe t.keys t.capacity hash = ProbeResult.claim slot) :
    s.putHash hash g a n f =
      (idFor t.capacity slot,
       { tables :=
           (if g ∧ (t.size + 1) % U32 = t.capacity * 3 % U32 / 4 then
             freshTable (t.capacity * 2 % U32) ::
               claimedTable t slot hash (claimStored s rest hash a n f).1 :: rest
           else claimedTable t slot hash (claimStored s rest hash a n f).1 :: rest),
         arena := (claimStored s rest hash a n f).2 }) := by
  unfold CallTraceStorage.putHash
  rw [hs]
  simp only [hp]
  cases rest with
  | nil =>
    simp only [claimStored, claimedTable]
  | cons p rest' =>
    cases hfind : findCallTrace p hash with
    | none => simp only [claimStored, claimedTable, hfind]
    | some ptr => simp only [claimStored, claimedTable, hfind]

/-! ### Collect as a list of occupied-slot entries -/

/-- Lookup in the output map (first binding wins; bindings are kept with
pairwise-distinct keys by `mapAssign`). -/
def mapLookup (m : List (Nat × Option Nat)) (k : Nat) : Option (Option Nat) :=
  match m with
  | [] => none
  | (k', v) :: rest => if k' = k then some v else mapLookup rest k

/-- The entries one table contributes to `collect`: one per occupied slot,
in slot order. -/
def occPairs (t : LongHashTable) : List (Nat × Option Nat) :=
  ((List.range t.capacity).filter (fun s => decide (t.keys s ≠ 0))).map
    (fun s => (idFor t.capacity s, t.values s))

/-- The IDs one table contributes to `collect`. -/
def idsOf (t : LongHashTable) : List Nat := (occPairs t).map Prod.fst

theorem mapAssign_of_not_mem {m : List (Nat × Option Nat)} {k : Nat}
    (h : k ∉ m.map Prod.fst) (v : Option Nat) : mapAssign m k v = m ++ [(k, v)] := by
  induction m with
  | nil => rfl
  | cons p rest ih =>
    have hne : p.1 ≠ k := by
      intro hc
      exact h (by simp [hc])
    show mapAssign (p :: rest) k v = _
    obtain ⟨k', v'⟩ := p
    simp only [mapAssign, if_neg hne]
    rw [ih (by intro hc; exact h (by simp [hc]))]
    rfl

theorem mapLookup_eq_none_iff (m : List (Nat × Option Nat)) (k : Nat) :
    mapLookup m k = none ↔ k ∉ m.map Prod.fst := by
  induction m with
  | nil => simp [mapLookup]
  | cons p rest ih =>
    obtain ⟨k', v'⟩ := p
    by_cases hk : k' = k
    · subst hk
      simp [mapLookup, ih]
    · simp [mapLookup, if_neg hk, ih, Ne.symm hk]

theorem mapLookup_eq_of_mem {m : List (Nat × Option Nat)} {k : Nat}
    {v : Option Nat} (hnd : (m.map Prod.fst).Nodup) (hmem : (k, v) ∈ m) :
    mapLookup m k = some v := by
  induction m with
  | nil => cases hmem
  | cons p rest ih =>
    obtain ⟨k', v'⟩ := p
    rcases List.mem_cons.mp hmem with heq | hmem'
    · cases heq
      simp [mapLookup]
    · have hk : k' ≠ k := by
        intro hc
        subst hc
        have : k' ∈ rest.map Prod.fst :=
          List.mem_map.mpr ⟨(k', v), hmem', rfl⟩
        exact (List.nodup_cons.mp hnd).1 this
      simp only [mapLookup, if_neg hk]
      exact ih (List.nodup_cons.mp hnd).2 hmem'

/-- A conditional fold is the fold over the filtered list. -/
theorem foldl_filter_cond {M : Type} (g : M → Nat → M) (P : Nat → Prop)
    [DecidablePred P] (L : List Nat) : ∀ m : M,
    L.foldl (fun acc s => if P s then g acc s else acc) m =
      (L.filter (fun s => decide (P s))).foldl g m := by
  induction L with
  | nil => intro m; rfl
  | cons a L ih =>
    intro m
    by_cases hP : P a
    · simp only [List.foldl_cons, if_pos hP, List.filter_cons,
        decide_eq_true hP, List.foldl_cons]
      exact ih _
    · simp only [List.foldl_cons, if_neg hP, List.filter_cons,
        decide_eq_false hP, if_neg (by simp : ¬ (false = true)), ih]

theorem collectTable_as_pairs (t : LongHashTable) (m : List (Nat × Option Nat)) :
    collectTable m t = (occPairs t).foldl (fun acc p => mapAssign acc p.1 p.2) m := by
  unfold collectTable occPairs
  rw [foldl_filter_cond (fun acc s => mapAssign acc (idFor t.capacity s) (t.values s))
    (fun s => t.keys s ≠ 0) (List.range t.capacity) m]
  rw [List.foldl_map]

theorem foldl_mapAssign_eq_append (A : List (Nat × Option Nat)) : ∀ m,
    ((m ++ A).map Prod.fst).Nodup →
    A.foldl (fun acc p => mapAssign acc p.1 p.2) m = m ++ A := by
  induction A with
  | nil => intro m _; simp
  | cons p A ih =>
    intro m hnd
    obtain ⟨k, v⟩ := p
    have hmap : ((m ++ (k, v) :: A).map Prod.fst) =
        m.map Prod.fst ++ k :: A.map Prod.fst := by simp
    rw [hmap] at hnd
    have hknm : k ∉ m.map Prod.fst := by
      intro hc
      have := (List.nodup_append.mp hnd).2.2
      exact this hc (by simp)
    show A.foldl (fun acc p => mapAssign acc p.1 p.2) (mapAssign m k v) = _
    rw [mapAssign_of_not_mem hknm v, ih (m ++ [(k, v)]) (by simpa using hnd)]
    simp

/-- `collect` over a chain whose IDs are globally distinct is just the
concatenation of the per-table occupied entries, current table first. -/
theorem foldl_collectTable_eq (ts : List LongHashTable) : ∀ m,
    ((m ++ (ts.map occPairs).flatten).map Prod.fst).Nodup →
    ts.foldl collectTable m = m ++ (ts.map occPairs).flatten := by
  induction ts with
  | nil => intro m _; simp
  | cons t ts ih =>
    intro m hnd
    have hassoc : m ++ ((t :: ts).map occPairs).flatten =
        (m ++ occPairs t) ++ (ts.map occPairs).flatten := by simp
    rw [hassoc] at hnd
    show ts.foldl collectTable (collectTable m t) = _
    rw [collectTable_as_pairs, foldl_mapAssign_eq_append (occPairs t) m
      (by
        have : ((m ++ occPairs t).map Prod.fst).Nodup := by
          have h2 := hnd
          rw [List.map_append, List.nodup_append] at h2
          exact h2.1
        exact this)]
    rw [ih (m ++ occPairs t) hnd, hassoc]

theorem idsOf_nodup {t : LongHashTable} (h1 : 65536 ≤ t.capacity)
    (h2 : t.capacity ≤ 2147483648) : (idsOf t).Nodup := by
  unfold idsOf occPairs
  rw [List.map_map]
  apply List.Nodup.map_on
  · intro s1 hs1 s2 hs2 heq
    have hm1 := List.mem_range.mp (List.mem_filter.mp hs1).1
    have hm2 := List.mem_range.mp (List.mem_filter.mp hs2).1
    by_contra hne
    exact idFor_inj h1 h2 hm1 hm2 hne (by simpa using heq)
  · exact List.Nodup.filter _ (List.nodup_range _)

theorem idsOf_bounds {t : LongHashTable} (h1 : 65536 ≤ t.capacity)
    (h2 : t.capacity ≤ 2147483648) {id : Nat} (hid : id ∈ idsOf t) :
    t.capacity - 65535 ≤ id ∧ id ≤ 2 * t.capacity - 65536 := by
  unfold idsOf occPairs at hid
  rw [List.map_map] at hid
  obtain ⟨s, hs, rfl⟩ := List.mem_map.mp hid
  have hm := List.mem_range.mp (List.mem_filter.mp hs).1
  exact idFor_bounds h1 h2 hm

theorem idsOf_cap_zero {t : LongHashTable} (h : t.capacity = 0) : idsOf t = [] := by
  unfold idsOf occPairs
  rw [h]
  rfl

theorem flatten_map_fst (ts : List LongHashTable) :
    ((ts.map occPairs).flatten).map Prod.fst = (ts.map idsOf).flatten := by
  induction ts with
  | nil => rfl
  | cons t ts ih => simp [idsOf, ih]

/-- All IDs contributed by a chain with capacities `capsList n` are at most
`65536 * 2^n - 65536`. -/
theorem flatten_idsOf_le (ts : List LongHashTable) : ∀ n, n ≤ 16 →
    ts.map (fun t => t.capacity) = capsList n →
    ∀ id ∈ (ts.map idsOf).flatten, id ≤ 65536 * 2 ^ n - 65536 := by
  induction ts with
  | nil => intro n _ _ id hid; cases hid
  | cons t ts ih =>
    intro n hn hcaps id hid
    cases n with
    | zero => cases hcaps
    | succ k =>
      simp only [capsList, List.map_cons, List.cons.injEq] at hcaps
      obtain ⟨hcap, hrest⟩ := hcaps
      have hcap1 : 65536 ≤ t.capacity := by
        rw [hcap, IC_val]
        have : 1 ≤ 2 ^ k := Nat.one_le_two_pow
        omega
      have hcap2 : t.capacity ≤ 2147483648 := by
        rw [hcap, IC_val]
        have : 2 ^ k ≤ 2 ^ 15 := Nat.pow_le_pow_right (by omega) (by omega)
        omega
      rw [List.map_cons, List.flatten_cons] at hid
      rcases List.mem_append.mp hid with hhd | htl
      · have := (idsOf_bounds hcap1 hcap2 hhd).2
        rw [hcap, IC_val] at this
        have hpow : 65536 * 2 ^ (k + 1) = 2 * (65536 * 2 ^ k) := by ring
        omega
      · have := ih k (by omega) hrest id htl
        have hmono : 65536 * 2 ^ k ≤ 65536 * 2 ^ (k + 1) := by
          have : 2 ^ k ≤ 2 ^ (k + 1) := Nat.pow_le_pow_right (by omega) (by omega)
          omega
        omega

/-- The IDs of a chain with good capacities are pairwise distinct. -/
theorem flatten_idsOf_nodup (ts : List LongHashTable) : ∀ n, n ≤ 16 →
    ts.map (fun t => t.capacity) = capsList n →
    ((ts.map idsOf).flatten).Nodup := by
  induction ts with
  | nil => intro n _ _; simp
  | cons t ts ih =>
    intro n hn hcaps
    cases n with
    | zero => cases hcaps
    | succ k =>
      simp only [capsList, List.map_cons, List.cons.injEq] at hcaps
      obtain ⟨hcap, hrest⟩ := hcaps
      have hcap1 : 65536 ≤ t.capacity := by
        rw [hcap, IC_val]
        have : 1 ≤ 2 ^ k := Nat.one_le_two_pow
        omega
      have hcap2 : t.capacity ≤ 2147483648 := by
        rw [hcap, IC_val]
        have : 2 ^ k ≤ 2 ^ 15 := Nat.pow_le_pow_right (by omega) (by omega)
        omega
      show ((idsOf t ++ (ts.map idsOf).flatten)).Nodup
      rw [List.nodup_append]
      refine ⟨idsOf_nodup hcap1 hcap2, ih k (by omega) hrest, ?_⟩
      intro id hid1 hid2
      have hlow := (idsOf_bounds hcap1 hcap2 hid1).1
      have hhigh := flatten_idsOf_le ts k (by omega) hrest id hid2
      rw [hcap, IC_val] at hlow
      have hpow : 65536 * 2 ^ (k + 1) = 2 * (65536 * 2 ^ k) := by ring
      have h1k : 1 ≤ 2 ^ k := Nat.one_le_two_pow
      omega

/-- Under the chain invariant (also in its transient zero-capacity-head
form) all IDs `collect` would emit are pairwise distinct. -/
theorem occAll_nodup {s : CallTraceStorage}
    (h : wfCapsW (s.tables.map (fun t => t.capacity)) = true) :
    (((s.tables.map occPairs).flatten).map Prod.fst).Nodup := by
  rw [flatten_map_fst]
  unfold wfCapsW at h
  rw [Bool.or_eq_true] at h
  rcases h with hgood | hzero
  · obtain ⟨n, hn1, hn16, heq⟩ := (goodCaps_iff _).mp hgood
    exact flatten_idsOf_nodup s.tables n hn16 heq
  · cases hts : s.tables with
    | nil => simp [hts] at hzero
    | cons t rest =>
      rw [hts] at hzero
      simp only [List.map_cons] at hzero
      cases hcap0 : t.capacity with
      | succ c => rw [hcap0] at hzero; simp at hzero
      | zero =>
        rw [hcap0] at hzero
        simp only at hzero
        obtain ⟨n, hn1, hn16, heq⟩ := (goodCaps_iff _).mp hzero
        show ((idsOf t ++ (rest.map idsOf).flatten)).Nodup
        rw [idsOf_cap_zero hcap0, List.nil_append]
        exact flatten_idsOf_nodup rest n hn16 heq

/-- Main description of `collect`: under the chain invariant it is exactly
the concatenation of per-table occupied entries, current table first. -/
theorem collect_eq_occ (s : CallTraceStorage)
    (h : wfCapsW (s.tables.map (fun t => t.capacity)) = true) :
    s.collect = (s.tables.map occPairs).flatten := by
  show s.tables.foldl collectTable [] = _
  rw [foldl_collectTable_eq s.tables [] (by simpa using occAll_nodup h)]
  simp

theorem occPairs_mem {t : LongHashTable} {slot : Nat} (hs : slot < t.capacity)
    (hocc : t.keys slot ≠ 0) : (idFor t.capacity slot, t.values slot) ∈ occPairs t := by
  unfold occPairs
  exact List.mem_map.mpr ⟨slot,
    List.mem_filter.mpr ⟨List.mem_range.mpr hs, by simpa using hocc⟩, rfl⟩

theorem goodCaps_wfCapsW {l : List Nat} (h : goodCaps l = true) :
    wfCapsW l = true := by
  unfold wfCapsW
  rw [Bool.or_eq_true]
  exact Or.inl h

/-- Every occupied slot of every table of a well-formed chain is looked up
in the output of `collect` at its own ID, with its own value. -/
theorem collect_lookup_occ {s : CallTraceStorage}
    (h : wfCapsW (s.tables.map (fun t => t.capacity)) = true)
    {t : LongHashTable} (ht : t ∈ s.tables) {w : Nat}
    (hs : w < t.capacity) (hocc : t.keys w ≠ 0) :
    mapLookup s.collect (idFor t.capacity w) = some (t.values w) := by
  rw [collect_eq_occ s h]
  exact mapLookup_eq_of_mem (occAll_nodup h)
    (List.mem_flatten.mpr ⟨occPairs t, List.mem_map.mpr ⟨t, ht, rfl⟩,
      occPairs_mem hs hocc⟩)

theorem goodCaps_cons_head {c : Nat} {cs : List Nat}
    (h : goodCaps (c :: cs) = true) :
    c = 65536 * 2 ^ cs.length ∧ 65536 ≤ c ∧ c ≤ 2147483648 ∧
      cs = capsList cs.length ∧ cs.length ≤ 15 := by
  obtain ⟨n, hn1, hn16, heq⟩ := (goodCaps_iff _).mp h
  cases n with
  | zero => cases heq
  | succ k =>
    simp only [capsList, List.cons.injEq] at heq
    obtain ⟨hc, hcs⟩ := heq
    have hlen : cs.length = k := by rw [hcs, capsList_length]
    have h1 : 1 ≤ 2 ^ k := Nat.one_le_two_pow
    have h2 : 2 ^ k ≤ 2 ^ 15 := Nat.pow_le_pow_right (by omega) (by omega)
    rw [IC_val] at hc
    exact ⟨by rw [hlen, hc], by omega, by omega, by rw [hlen, ← hcs], by omega⟩

/-- An empty slot of the current table of a well-formed chain has no entry
in the output of `collect` under its ID: neither the current table (the slot
is empty) nor any older table (disjoint ID ranges) contributes it. -/
theorem collect_lookup_head_empty {s : CallTraceStorage} {t : LongHashTable}
    {rest : List LongHashTable} (hts : s.tables = t :: rest)
    (h : goodCaps (s.tables.map (fun x => x.capacity)) = true)
    {slot : Nat} (hs : slot < t.capacity) (hempty : t.keys slot = 0) :
    mapLookup s.collect (idFor t.capacity slot) = none := by
  rw [collect_eq_occ s (goodCaps_wfCapsW h)]
  rw [mapLookup_eq_none_iff, flatten_map_fst]
  rw [hts] at h
  simp only [List.map_cons] at h
  obtain ⟨hcval, hc1, hc2, hcs, hlen15⟩ := goodCaps_cons_head h
  rw [List.length_map] at hcval hcs hlen15
  intro hmem
  rw [hts, List.map_cons, List.flatten_cons] at hmem
  rcases List.mem_append.mp hmem with hhd | htl
  · unfold idsOf occPairs at hhd
    rw [List.map_map] at hhd
    obtain ⟨s', hs', heq⟩ := List.mem_map.mp hhd
    have hm := List.mem_range.mp (List.mem_filter.mp hs').1
    have hocc : t.keys s' ≠ 0 := by
      have := (List.mem_filter.mp hs').2
      simpa using this
    have hne : s' ≠ slot := fun hc => hocc (hc ▸ hempty)
    exact idFor_inj hc1 hc2 hm hs hne (by simpa using heq)
  · have hb := flatten_idsOf_le rest rest.length (by omega)
      (by rw [hcs]) _ htl
    have hlow := (idFor_bounds hc1 hc2 hs).1
    have h1 : 1 ≤ 2 ^ rest.length := Nat.one_le_two_pow
    omega

/-! ### Claim C4 -/

/-- C4: for every power-of-two capacity and every starting hash, the probe
sequence shared by `findCallTrace` and `put` follows the triangular closed
form `slot_k = (slot_0 + k(k+1)/2) mod capacity`, its first `capacity`
positions are pairwise distinct, it visits every slot, and when no slot
holds the hash and no slot is empty both loops terminate unsuccessfully
after at most `capacity` steps: `findCallTrace` returns null and `put`
returns 0 leaving the store unchanged. -/
theorem C4_probe (m : Nat) (hm : m ≤ 31) (hash : Nat) (t : LongHashTable)
    (hcap : t.capacity = 2 ^ m) (s : CallTraceStorage)
    (rest : List LongHashTable) (hts : s.tables = t :: rest)
    (g a : Bool) (nf : Nat) (fr : List Nat) :
    (∀ k, probePos (2 ^ m) hash k =
      (probePos (2 ^ m) hash 0 + tri k) % 2 ^ m) ∧
    (∀ i j, i < 2 ^ m → j < 2 ^ m → i ≠ j →
      probePos (2 ^ m) hash i ≠ probePos (2 ^ m) hash j) ∧
    (∀ sl, sl < 2 ^ m → ∃ k, k < 2 ^ m ∧ probePos (2 ^ m) hash k = sl) ∧
    ((∀ sl, sl < 2 ^ m → t.keys sl ≠ hash ∧ t.keys sl ≠ 0) →
      findCallTrace t hash = none ∧ s.putHash hash g a nf fr = (0, s)) := by
  have hm32 : m ≤ 32 := by omega
  refine ⟨?_, ?_, ?_, ?_⟩
  · intro k
    rw [probePos_closed hm32, probePos_closed hm32]
    have h0 : tri 0 = 0 := rfl
    rw [h0, Nat.add_zero, Nat.mod_mod_of_dvd _ (dvd_refl _), Nat.mod_add_mod]
  · intro i j hi hj hij
    exact probePos_injOn hm32 hash hi hj hij
  · intro sl hsl
    exact probePos_surjOn hm32 hash hsl
  · intro hfull
    have hover : probe t.keys (2 ^ m) hash = ProbeResult.overflow :=
      probe_overflow_of_none hm32 t.keys hash hfull
    constructor
    · unfold findCallTrace
      rw [hcap, hover]
    · exact putHash_overflow hts (by rw [hcap]; exact hover)

/-- Witness for C4 at capacity `2^16` with an all-occupied table. -/
theorem C4_probe_witness :
    findCallTrace ⟨65536, fun _ => 1, fun _ => none, 65536⟩ 3 = none ∧
    CallTraceStorage.putHash ⟨[⟨65536, fun _ => 1, fun _ => none, 65536⟩], []⟩
      3 true true 1 [7] =
      (0, ⟨[⟨65536, fun _ => 1, fun _ => none, 65536⟩], []⟩) := by
  exact (C4_probe 16 (by omega) 3 ⟨65536, fun _ => 1, fun _ => none, 65536⟩
    (by decide) ⟨[⟨65536, fun _ => 1, fun _ => none, 65536⟩], []⟩ [] rfl
    true true 1 [7]).2.2.2 (fun sl _ => ⟨(by decide : (1 : Nat) ≠ 3), (by decide : (1 : Nat) ≠ 0)⟩)

/-! ### Claim C3 -/

/-- C3: for every table of a well-formed chain and every slot below its
capacity, the emitted ID is `capacity - (INITIAL_CAPACITY - 1) + slot`;
for capacities 65536, 131072, 262144 the ID ranges are `[1, 65536]`,
`[65537, 196608]`, `[196609, 458752]`; IDs are never 0, IDs of distinct
(table, slot) pairs of the chain are distinct, and a `put` whose probe does
not overflow returns a non-zero ID. -/
theorem C3_ids (l : List Nat) (hl : goodCaps l = true) (c c' slot slot' : Nat)
    (hc : c ∈ l) (hc' : c' ∈ l) (hs : slot < c) (hs' : slot' < c') :
    idFor c slot = c - (INITIAL_CAPACITY - 1) + slot ∧
    idFor c slot ≠ 0 ∧
    (c = 65536 → 1 ≤ idFor c slot ∧ idFor c slot ≤ 65536) ∧
    (c = 131072 → 65537 ≤ idFor c slot ∧ idFor c slot ≤ 196608) ∧
    (c = 262144 → 196609 ≤ idFor c slot ∧ idFor c slot ≤ 458752) ∧
    (¬(c = c' ∧ slot = slot') → idFor c slot ≠ idFor c' slot') ∧
    (∀ (s : CallTraceStorage) (t : LongHashTable) (rest : List LongHashTable)
      (g a : Bool) (nf : Nat) (fr : List Nat) (hash : Nat),
      s.tables = t :: rest → t.capacity = c →
      probe t.keys t.capacity hash ≠ ProbeResult.overflow →
      (s.putHash hash g a nf fr).1 ≠ 0) := by
  obtain ⟨m1, hm1a, hm1b, hceq⟩ := goodCaps_mem hl hc
  obtain ⟨m2, hm2a, hm2b, hceq'⟩ := goodCaps_mem hl hc'
  have hc1 : 65536 ≤ c := by
    rw [hceq]
    calc 65536 = 2 ^ 16 := by decide
    _ ≤ 2 ^ m1 := Nat.pow_le_pow_right (by omega) hm1a
  have hc2 : c ≤ 2147483648 := by
    rw [hceq]
    calc 2 ^ m1 ≤ 2 ^ 31 := Nat.pow_le_pow_right (by omega) hm1b
    _ = 2147483648 := by decide
  have hc1' : 65536 ≤ c' := by
    rw [hceq']
    calc 65536 = 2 ^ 16 := by decide
    _ ≤ 2 ^ m2 := Nat.pow_le_pow_right (by omega) hm2a
  have hc2' : c' ≤ 2147483648 := by
    rw [hceq']
    calc 2 ^ m2 ≤ 2 ^ 31 := Nat.pow_le_pow_right (by omega) hm2b
    _ = 2147483648 := by decide
  refine ⟨?_, ?_, ?_, ?_, ?_, ?_, ?_⟩
  · rw [idFor_eval hc1 hc2 hs, IC_val]
  · have := idFor_pos hc1 hc2 hs
    omega
  · intro h65
    subst h65
    have := idFor_eval hc1 hc2 hs
    omega
  · intro h13
    subst h13
    have := idFor_eval hc1 hc2 hs
    omega
  · intro h26
    subst h26
    have := idFor_eval hc1 hc2 hs
    omega
  · intro hne
    by_cases hcc : c = c'
    · subst hcc
      have hss : slot ≠ slot' := fun heq => hne ⟨rfl, heq⟩
      exact idFor_inj hc1 hc2 hs hs' hss
    · have hmm : m1 ≠ m2 := by
        intro heq
        exact hcc (by rw [hceq, hceq', heq])
      rcases Nat.lt_or_ge m1 m2 with hlt | hge
      · have hdouble : 2 * c ≤ c' := by
          rw [hceq, hceq']
          have : 2 ^ (m1 + 1) ≤ 2 ^ m2 := Nat.pow_le_pow_right (by omega) (by omega)
          rw [Nat.pow_succ] at this
          omega
        exact idFor_ne_of_lt_cap hc1 hdouble hc2' hs hs'
      · have hlt2 : m2 < m1 := by omega
        have hdouble : 2 * c' ≤ c := by
          rw [hceq, hceq']
          have : 2 ^ (m2 + 1) ≤ 2 ^ m1 := Nat.pow_le_pow_right (by omega) (by omega)
          rw [Nat.pow_succ] at this
          omega
        exact (idFor_ne_of_lt_cap hc1' hdouble hc2 hs' hs).symm
  · intro s t rest g a nf fr hash hts hcapc hprobe
    have hm1le : m1 ≤ 32 := by omega
    have hcapm : t.capacity = 2 ^ m1 := by rw [hcapc, hceq]
    cases hp : probe t.keys t.capacity hash with
    | overflow => exact absurd hp hprobe
    | hit sl =>
      rw [putHash_hit hts hp]
      have hsl := (probe_hit_inv hm1le (by rw [← hcapm]; exact hp)).2
      have := idFor_pos (by omega : 65536 ≤ t.capacity)
        (by omega : t.capacity ≤ 2147483648) (by omega : sl < t.capacity)
      omega
    | claim sl =>
      rw [putHash_claim hts hp]
      have hsl := (probe_claim_inv hm1le (by rw [← hcapm]; exact hp)).2.1
      have := idFor_pos (by omega : 65536 ≤ t.capacity)
        (by omega : t.capacity ≤ 2147483648) (by omega : sl < t.capacity)
      omega

/-- Witness for C3 on the two-table chain `[131072, 65536]`. -/
theorem C3_ids_witness :
    idFor 131072 5 = 131072 - (INITIAL_CAPACITY - 1) + 5 ∧
    idFor 131072 5 ≠ 0 ∧
    (131072 = 65536 → 1 ≤ idFor 131072 5 ∧ idFor 131072 5 ≤ 65536) ∧
    (131072 = 131072 → 65537 ≤ idFor 131072 5 ∧ idFor 131072 5 ≤ 196608) ∧
    (131072 = 262144 → 196609 ≤ idFor 131072 5 ∧ idFor 131072 5 ≤ 458752) ∧
    (¬(131072 = 65536 ∧ 5 = 5) → idFor 131072 5 ≠ idFor 65536 5) ∧
    (∀ (s : CallTraceStorage) (t : LongHashTable) (rest : List LongHashTable)
      (g a : Bool) (nf : Nat) (fr : List Nat) (hash : Nat),
      s.tables = t :: rest → t.capacity = 131072 →
      probe t.keys t.capacity hash ≠ ProbeResult.overflow →
      (s.putHash hash g a nf fr).1 ≠ 0) :=
  C3_ids [131072, 65536] (by decide) 131072 65536 5 5 (by decide) (by decide)
    (by decide) (by decide)

/-! ### Claim C9 -/

theorem tables_getLast_cap : ∀ (ts : List LongHashTable),
    goodCaps (ts.map (fun t => t.capacity)) = true →
    ∃ t, ts.getLast? = some t ∧ t.capacity = INITIAL_CAPACITY := by
  intro ts
  induction ts with
  | nil => intro h; cases h
  | cons t rest ih =>
    intro h
    cases rest with
    | nil =>
      refine ⟨t, rfl, ?_⟩
      have : (t.capacity == INITIAL_CAPACITY) = true := h
      exact eq_of_beq this
    | cons t' rest' =>
      have htail : goodCaps ((t' :: rest').map (fun t => t.capacity)) = true := by
        have hh := h
        simp only [List.map_cons, goodCaps, Bool.and_eq_true] at hh
        simpa using hh.2
      obtain ⟨tl, htl, hcap⟩ := ih htail
      exact ⟨tl, by rw [List.getLast?_cons_cons]; exact htl, hcap⟩

/-- C9: after `clear()` the chain has length 1, the sole surviving table is
the tail of capacity `INITIAL_CAPACITY` with size 0 and all keys and values
zeroed, and the arena is cleared. -/
theorem C9_clear (s : CallTraceStorage) (h : s.wf = true) :
    s.clear.tables.length = 1 ∧
    (∃ t0, s.clear.tables = [t0] ∧ t0.capacity = INITIAL_CAPACITY ∧
      t0.size = 0 ∧ (∀ sl, t0.keys sl = 0) ∧ (∀ sl, t0.values sl = none)) ∧
    s.clear.arena = [] := by
  obtain ⟨tl, htl, hcap⟩ := tables_getLast_cap s.tables h
  unfold CallTraceStorage.clear
  rw [htl]
  exact ⟨rfl, ⟨clearTable tl, rfl, hcap, rfl, fun _ => rfl, fun _ => rfl⟩, rfl⟩

/-- Witness for C9 on a two-table chain with occupied slots and a non-empty
arena. -/
theorem C9_clear_witness :
    (CallTraceStorage.clear
      ⟨[⟨131072, fun s => if s = 4 then 77 else 0, fun s => if s = 4 then some 0 else none, 1⟩,
        ⟨65536, fun s => if s = 9 then 5 else 0, fun s => if s = 9 then some 0 else none, 1⟩],
       [⟨1, [42]⟩]⟩).tables.length = 1 ∧
    (∃ t0, (CallTraceStorage.clear
      ⟨[⟨131072, fun s => if s = 4 then 77 else 0, fun s => if s = 4 then some 0 else none, 1⟩,
        ⟨65536, fun s => if s = 9 then 5 else 0, fun s => if s = 9 then some 0 else none, 1⟩],
       [⟨1, [42]⟩]⟩).tables = [t0] ∧ t0.capacity = INITIAL_CAPACITY ∧
      t0.size = 0 ∧ (∀ sl, t0.keys sl = 0) ∧ (∀ sl, t0.values sl = none)) ∧
    (CallTraceStorage.clear
      ⟨[⟨131072, fun s => if s = 4 then 77 else 0, fun s => if s = 4 then some 0 else none, 1⟩,
        ⟨65536, fun s => if s = 9 then 5 else 0, fun s => if s = 9 then some 0 else none, 1⟩],
       [⟨1, [42]⟩]⟩).arena = [] :=
  C9_clear _ (by decide)

/-! ### Claim C6 -/

theorem getD_map_range {nf : Nat} (f : Nat → Nat) {i : Nat} (hi : i < nf) :
    ((List.range nf).map f).getD i 0 = f i := by
  rw [List.getD_eq_getElem?_getD, List.getElem?_map, List.getElem?_range hi]
  rfl

theorem claimStored_cons (s : CallTraceStorage) (p : LongHashTable)
    (rest : List LongHashTable) (hash : Nat) (a : Bool) (nf : Nat)
    (fr : List Nat) :
    claimStored s (p :: rest) hash a nf fr =
      (match findCallTrace p hash with
       | some ptr => (some ptr, s.arena)
       | none => storeCallTrace s.arena a nf fr) := rfl

/-- C6: when `put` claims a previously empty slot in a table that has a
predecessor, it first consults the immediate predecessor: a non-null pointer
found there is stored in `values[slot]` and nothing is allocated; otherwise
(and if the arena allocation succeeds) a fresh `CallTrace` is allocated
whose `num_frames` equals the argument and whose frames are an element-wise
copy of the input frames. -/
theorem C6_inherit (s : CallTraceStorage) (t p : LongHashTable)
    (rest : List LongHashTable) (hash slot : Nat) (g a : Bool) (nf : Nat)
    (fr : List Nat) (hts : s.tables = t :: p :: rest)
    (hp : probe t.keys t.capacity hash = ProbeResult.claim slot) :
    ∃ t', ((s.putHash hash g a nf fr).2.tables = t' :: p :: rest ∨
        ∃ nt, (s.putHash hash g a nf fr).2.tables = nt :: t' :: p :: rest) ∧
      t'.keys slot = hash ∧
      (∀ ptr, findCallTrace p hash = some ptr →
        t'.values slot = some ptr ∧ (s.putHash hash g a nf fr).2.arena = s.arena) ∧
      (findCallTrace p hash = none → a = true →
        ∃ tr, (s.putHash hash g a nf fr).2.arena = s.arena ++ [tr] ∧
          t'.values slot = some s.arena.length ∧
          tr.num_frames = nf ∧ ∀ i, i < nf → tr.frames.getD i 0 = fr.getD i 0) := by
  rw [putHash_claim hts hp]
  refine ⟨claimedTable t slot hash (claimStored s (p :: rest) hash a nf fr).1,
    ?_, ?_, ?_, ?_⟩
  · by_cases hg : g ∧ (t.size + 1) % U32 = t.capacity * 3 % U32 / 4
    · right
      exact ⟨_, by rw [if_pos hg]⟩
    · left
      rw [if_neg hg]
  · simp [claimedTable]
  · intro ptr hfind
    constructor
    · show (if slot = slot then (claimStored s (p :: rest) hash a nf fr).1
        else t.values slot) = some ptr
      rw [if_pos rfl, claimStored_cons, hfind]
    · show (claimStored s (p :: rest) hash a nf fr).2 = s.arena
      rw [claimStored_cons, hfind]
  · intro hfind ha
    refine ⟨⟨nf, (List.range nf).map (fun i => fr.getD i 0)⟩, ?_, ?_, rfl, ?_⟩
    · show (claimStored s (p :: rest) hash a nf fr).2 = _
      rw [claimStored_cons, hfind, ha]
      rfl
    · show (if slot = slot then (claimStored s (p :: rest) hash a nf fr).1
        else t.values slot) = some s.arena.length
      rw [if_pos rfl, claimStored_cons, hfind, ha]
      rfl
    · intro i hi
      exact getD_map_range (fun i => fr.getD i 0) hi

/-- Witness for C6: a two-table chain whose predecessor already stores the
hash with a published pointer, and a fresh hash that goes to the arena. -/
theorem C6_inherit_witness :
    ∃ t', ((CallTraceStorage.putHash
        ⟨[freshTable 131072,
          ⟨65536, fun s => if s = 9 then 9 else 0, fun s => if s = 9 then some 0 else none, 1⟩],
         [⟨1, [42]⟩]⟩ 9 true true 1 [42]).2.tables =
          t' :: ⟨65536, fun s => if s = 9 then 9 else 0, fun s => if s = 9 then some 0 else none, 1⟩ :: [] ∨
        ∃ nt, (CallTraceStorage.putHash
        ⟨[freshTable 131072,
          ⟨65536, fun s => if s = 9 then 9 else 0, fun s => if s = 9 then some 0 else none, 1⟩],
         [⟨1, [42]⟩]⟩ 9 true true 1 [42]).2.tables =
          nt :: t' :: ⟨65536, fun s => if s = 9 then 9 else 0, fun s => if s = 9 then some 0 else none, 1⟩ :: []) ∧
      t'.keys 9 = 9 ∧
      (∀ ptr, findCallTrace ⟨65536, fun s => if s = 9 then 9 else 0, fun s => if s = 9 then some 0 else none, 1⟩ 9 = some ptr →
        t'.values 9 = some ptr ∧ (CallTraceStorage.putHash
        ⟨[freshTable 131072,
          ⟨65536, fun s => if s = 9 then 9 else 0, fun s => if s = 9 then some 0 else none, 1⟩],
         [⟨1, [42]⟩]⟩ 9 true true 1 [42]).2.arena = [⟨1, [42]⟩]) ∧
      (findCallTrace ⟨65536, fun s => if s = 9 then 9 else 0, fun s => if s = 9 then some 0 else none, 1⟩ 9 = none → true = true →
        ∃ tr, (CallTraceStorage.putHash
        ⟨[freshTable 131072,
          ⟨65536, fun s => if s = 9 then 9 else 0, fun s => if s = 9 then some 0 else none, 1⟩],
         [⟨1, [42]⟩]⟩ 9 true true 1 [42]).2.arena = [⟨1, [42]⟩] ++ [tr] ∧
          tr.num_frames = 1 ∧ ∀ i, i < 1 → tr.frames.getD i 0 = [42].getD i 0) := by
  have h := C6_inherit
    ⟨[freshTable 131072,
      ⟨65536, fun s => if s = 9 then 9 else 0, fun s => if s = 9 then some 0 else none, 1⟩],
     [⟨1, [42]⟩]⟩ (freshTable 131072)
    ⟨65536, fun s => if s = 9 then 9 else 0, fun s => if s = 9 then some 0 else none, 1⟩
    [] 9 9 true true 1 [42] rfl (by decide)
  obtain ⟨t', hpos, hk, hsome, hnone⟩ := h
  exact ⟨t', hpos, hk, hsome, fun hf _ => by
    obtain ⟨tr, h1, h2, h3, h4⟩ := hnone hf rfl
    exact ⟨tr, h1, h3, h4⟩⟩

/-! ### Preservation of the chain invariant by put -/

theorem putHash_claim_wfCapsW {s : CallTraceStorage} {t : LongHashTable}
    {rest : List LongHashTable} {hash slot : Nat} {g a : Bool} {n : Nat}
    {f : List Nat} (hwf : s.wf = true) (hts : s.tables = t :: rest)
    (hp : probe t.keys t.capacity hash = ProbeResult.claim slot) :
    wfCapsW (((s.putHash hash g a n f).2.tables).map (fun x => x.capacity)) = true := by
  have hcaps : goodCaps ((t :: rest).map (fun x => x.capacity)) = true := by
    have := hwf
    unfold CallTraceStorage.wf at this
    rw [hts] at this
    exact this
  obtain ⟨hcval0, hc10, hc20, hcs, hlen15⟩ := goodCaps_cons_head hcaps
  rw [List.length_map] at hcval0 hcs hlen15
  have hcval : t.capacity = 65536 * 2 ^ rest.length := hcval0
  have hc1 : 65536 ≤ t.capacity := hc10
  have hc2 : t.capacity ≤ 2147483648 := hc20
  rw [putHash_claim hts hp]
  by_cases hg : g ∧ (t.size + 1) % U32 = t.capacity * 3 % U32 / 4
  · rw [if_pos hg]
    simp only [List.map_cons]
    show wfCapsW ((freshTable (t.capacity * 2 % U32)).capacity ::
      (claimedTable t slot hash (claimStored s rest hash a n f).1).capacity ::
      rest.map (fun x => x.capacity)) = true
    have hclaimcap : (claimedTable t slot hash
        (claimStored s rest hash a n f).1).capacity = t.capacity := rfl
    rw [hclaimcap]
    by_cases hbig : rest.length = 15
    · have hcap31 : t.capacity = 2147483648 := by
        rw [hcval, hbig]; decide
      have hfresh0 : (freshTable (t.capacity * 2 % U32)).capacity = 0 := by
        show t.capacity * 2 % U32 = 0
        rw [hcap31, U32_val]
      rw [hfresh0]
      unfold wfCapsW
      rw [Bool.or_eq_true]
      right
      show goodCaps (t.capacity :: rest.map (fun x => x.capacity)) = true
      exact hcaps
    · have hsmall : rest.length ≤ 14 := by omega
      have hcapsmall : t.capacity ≤ 1073741824 := by
        rw [hcval]
        have : 2 ^ rest.length ≤ 2 ^ 14 := Nat.pow_le_pow_right (by omega) hsmall
        omega
      have hfresh2 : (freshTable (t.capacity * 2 % U32)).capacity =
          2 * t.capacity := by
        show t.capacity * 2 % U32 = 2 * t.capacity
        rw [U32_val]
        have : t.capacity * 2 < 4294967296 := by omega
        rw [Nat.mod_eq_of_lt this]
        omega
      rw [hfresh2]
      apply goodCaps_wfCapsW
      apply (goodCaps_iff _).mpr
      refine ⟨rest.length + 2, by omega, by omega, ?_⟩
      have htail : t.capacity :: rest.map (fun x => x.capacity) =
          capsList (rest.length + 1) := by
        show _ = (INITIAL_CAPACITY * 2 ^ rest.length) :: capsList rest.length
        rw [IC_val, ← hcval, ← hcs]
      show 2 * t.capacity :: t.capacity :: rest.map (fun x => x.capacity) =
        (INITIAL_CAPACITY * 2 ^ (rest.length + 1)) :: capsList (rest.length + 1)
      rw [← htail]
      have : 2 * t.capacity = INITIAL_CAPACITY * 2 ^ (rest.length + 1) := by
        rw [hcval, Nat.pow_succ, IC_val]
        ring
      rw [this]
  · rw [if_neg hg]
    apply goodCaps_wfCapsW
    simp only [List.map_cons]
    show goodCaps ((claimedTable t slot hash
      (claimStored s rest hash a n f).1).capacity ::
      rest.map (fun x => x.capacity)) = true
    have hclaimcap : (claimedTable t slot hash
        (claimStored s rest hash a n f).1).capacity = t.capacity := rfl
    rw [hclaimcap]
    exact hcaps

/-! ### Claim C8 -/

theorem claimStored_arena_fail {s : CallTraceStorage} {rest : List LongHashTable}
    {hash : Nat} {n : Nat} {f : List Nat}
    (h : rest = [] ∨ ∃ p rest', rest = p :: rest' ∧ findCallTrace p hash = none) :
    claimStored s rest hash false n f = (none, s.arena) := by
  rcases h with rfl | ⟨p, rest', rfl, hfind⟩
  · rfl
  · rw [claimStored_cons, hfind]
    rfl

/-- C8: if the arena allocation fails after a slot was claimed, `put` does
not abort: the slot keeps the hash with a null value, the arena is
unchanged, `put` still returns the slot's valid non-zero ID, and a
subsequent `collect` emits a null trace for that ID; if instead probing
exhausts `capacity` steps, `put` returns 0 and writes nothing. -/
theorem C8_failure (s : CallTraceStorage) (t : LongHashTable)
    (rest : List LongHashTable) (hash slot : Nat) (g : Bool) (nf : Nat)
    (fr : List Nat) (hwf : s.wf = true) (hts : s.tables = t :: rest) :
    (probe t.keys t.capacity hash = ProbeResult.claim slot →
      (rest = [] ∨ ∃ p rest', rest = p :: rest' ∧ findCallTrace p hash = none) →
      (s.putHash hash g false nf fr).1 = idFor t.capacity slot ∧
      (s.putHash hash g false nf fr).1 ≠ 0 ∧
      (s.putHash hash g false nf fr).2.arena = s.arena ∧
      (∃ t', ((s.putHash hash g false nf fr).2.tables = t' :: rest ∨
          ∃ nt, (s.putHash hash g false nf fr).2.tables = nt :: t' :: rest) ∧
        t'.capacity = t.capacity ∧ t'.keys slot = hash ∧ t'.values slot = none) ∧
      mapLookup (s.putHash hash g false nf fr).2.collect
        (s.putHash hash g false nf fr).1 = some none) ∧
    (probe t.keys t.capacity hash = ProbeResult.overflow →
      s.putHash hash g false nf fr = (0, s)) := by
  constructor
  · intro hp hnone
    have hcaps : goodCaps ((t :: rest).map (fun x => x.capacity)) = true := by
      have := hwf
      unfold CallTraceStorage.wf at this
      rw [hts] at this
      exact this
    obtain ⟨hcval0, hc10, hc20, hcs, hlen15⟩ := goodCaps_cons_head hcaps
    have hc1 : 65536 ≤ t.capacity := hc10
    have hc2 : t.capacity ≤ 2147483648 := hc20
    obtain ⟨m, hm16, hm31, hmeq⟩ := goodCaps_mem hcaps
      (by simp : (fun x => x.capacity) t ∈ (t :: rest).map (fun x => x.capacity))
    have hmeq' : t.capacity = 2 ^ m := hmeq
    have hslot : t.keys slot = 0 ∧ slot < t.capacity ∧ hash ≠ 0 := by
      have := probe_claim_inv (show m ≤ 32 by omega)
        (by rw [← hmeq']; exact hp)
      rw [← hmeq'] at this
      exact this
    have hwfW := putHash_claim_wfCapsW (g := g) (a := false) (n := nf)
      (f := fr) hwf hts hp
    have hv := claimStored_arena_fail (s := s) (n := nf) (f := fr) hnone
    rw [putHash_claim hts hp]
    rw [putHash_claim hts hp] at hwfW
    refine ⟨rfl, ?_, ?_, ?_, ?_⟩
    · have := idFor_pos hc1 hc2 hslot.2.1
      omega
    · show (claimStored s rest hash false nf fr).2 = s.arena
      rw [hv]
    · refine ⟨claimedTable t slot hash (claimStored s rest hash false nf fr).1,
        ?_, rfl, ?_, ?_⟩
      · by_cases hg : g ∧ (t.size + 1) % U32 = t.capacity * 3 % U32 / 4
        · right; exact ⟨_, by rw [if_pos hg]⟩
        · left; rw [if_neg hg]
      · show (if slot = slot then hash else t.keys slot) = hash
        rw [if_pos rfl]
      · show (if slot = slot then (claimStored s rest hash false nf fr).1
          else t.values slot) = none
        rw [if_pos rfl, hv]
    · have hmem : claimedTable t slot hash
          (claimStored s rest hash false nf fr).1 ∈
          (if g ∧ (t.size + 1) % U32 = t.capacity * 3 % U32 / 4 then
            freshTable (t.capacity * 2 % U32) ::
              claimedTable t slot hash (claimStored s rest hash false nf fr).1 :: rest
          else claimedTable t slot hash
            (claimStored s rest hash false nf fr).1 :: rest) := by
        by_cases hg : g ∧ (t.size + 1) % U32 = t.capacity * 3 % U32 / 4
        · rw [if_pos hg]
          exact List.mem_cons.mpr (Or.inr (List.mem_cons_self _ _))
        · rw [if_neg hg]
          exact List.mem_cons_self _ _
      have hlook := collect_lookup_occ hwfW hmem
        (w := slot)
        (by
          show slot < t.capacity
          exact hslot.2.1)
        (by
          show (if slot = slot then hash else t.keys slot) ≠ 0
          rw [if_pos rfl]
          exact hslot.2.2)
      have hval : (claimedTable t slot hash
          (claimStored s rest hash false nf fr).1).values slot = none := by
        show (if slot = slot then (claimStored s rest hash false nf fr).1
          else t.values slot) = none
        rw [if_pos rfl, hv]
      rw [hval] at hlook
      exact hlook
  · intro hp
    exact putHash_overflow hts hp

/-- Witness for C8 at the initial storage with hash 5 (probe claims slot 5,
no predecessor, arena allocation failing). -/
theorem C8_failure_witness :
    ((CallTraceStorage.putHash initialStorage 5 true false 1 [7]).1 =
        idFor 65536 5 ∧
      (CallTraceStorage.putHash initialStorage 5 true false 1 [7]).1 ≠ 0 ∧
      (CallTraceStorage.putHash initialStorage 5 true false 1 [7]).2.arena = [] ∧
      (∃ t', ((CallTraceStorage.putHash initialStorage 5 true false 1 [7]).2.tables =
            t' :: [] ∨
          ∃ nt, (CallTraceStorage.putHash initialStorage 5 true false 1 [7]).2.tables =
            nt :: t' :: []) ∧
        t'.capacity = 65536 ∧ t'.keys 5 = 5 ∧ t'.values 5 = none) ∧
      mapLookup (CallTraceStorage.putHash initialStorage 5 true false 1 [7]).2.collect
        (CallTraceStorage.putHash initialStorage 5 true false 1 [7]).1 = some none) := by
  have h := (C8_failure initialStorage (freshTable INITIAL_CAPACITY) [] 5 5 true
    1 [7] (by decide) rfl).1 (by decide) (Or.inl rfl)
  exact h

/-! ### Claim C2 -/

/-- C2 (counterexample): a well-formed two-table chain in which both tables
hold the same non-zero hash 77.  Contrary to the claim, the older (tail)
table's entry does not overwrite the newer table's entry in the output map:
the two tables emit under different IDs (65536·2−65535+4 = 65541 versus
65536−65535+4 = 5), and both entries appear, each with its own value. -/
theorem C2_counterexample :
    mapLookup (CallTraceStorage.collect
      ⟨[⟨131072, fun s => if s = 4 then 77 else 0, fun s => if s = 4 then some 1 else none, 1⟩,
        ⟨65536, fun s => if s = 4 then 77 else 0, fun s => if s = 4 then some 0 else none, 1⟩],
       [⟨1, [10]⟩, ⟨1, [11]⟩]⟩) (idFor 131072 4) = some (some 1) ∧
    mapLookup (CallTraceStorage.collect
      ⟨[⟨131072, fun s => if s = 4 then 77 else 0, fun s => if s = 4 then some 1 else none, 1⟩,
        ⟨65536, fun s => if s = 4 then 77 else 0, fun s => if s = 4 then some 0 else none, 1⟩],
       [⟨1, [10]⟩, ⟨1, [11]⟩]⟩) (idFor 65536 4) = some (some 0) ∧
    idFor 131072 4 ≠ idFor 65536 4 ∧
    (some (some (1 : Nat)) : Option (Option Nat)) ≠ some (some 0) := by
  have hwf : wfCapsW ((CallTraceStorage.mk
      [⟨131072, fun s => if s = 4 then 77 else 0, fun s => if s = 4 then some 1 else none, 1⟩,
       ⟨65536, fun s => if s = 4 then 77 else 0, fun s => if s = 4 then some 0 else none, 1⟩]
      [⟨1, [10]⟩, ⟨1, [11]⟩]).tables.map (fun t => t.capacity)) = true := by decide
  refine ⟨?_, ?_, by decide, by decide⟩
  · have h := collect_lookup_occ hwf
      (t := ⟨131072, fun s => if s = 4 then 77 else 0, fun s => if s = 4 then some 1 else none, 1⟩)
      (List.mem_cons_self _ _) (w := 4) (by decide)
      ((by decide : (77 : Nat) ≠ 0))
    exact h
  · have h := collect_lookup_occ hwf
      (t := ⟨65536, fun s => if s = 4 then 77 else 0, fun s => if s = 4 then some 0 else none, 1⟩)
      (List.mem_cons.mpr (Or.inr (List.mem_cons_self _ _))) (w := 4) (by decide)
      ((by decide : (77 : Nat) ≠ 0))
    exact h

/-- The element of the canonical capacity chain with `l2.length` entries
after it is `INITIAL_CAPACITY * 2 ^ l2.length`. -/
theorem capsList_decomp : ∀ (n : Nat) (l1 : List Nat) (c : Nat) (l2 : List Nat),
    capsList n = l1 ++ c :: l2 → c = INITIAL_CAPACITY * 2 ^ l2.length := by
  intro n
  induction n with
  | zero =>
    intro l1 c l2 h
    cases l1 <;> simp [capsList] at h
  | succ k ih =>
    intro l1 c l2 h
    cases l1 with
    | nil =>
      rw [List.nil_append] at h
      simp only [capsList, List.cons.injEq] at h
      obtain ⟨hc, hl2⟩ := h
      rw [← hc, ← hl2, capsList_length]
    | cons x l1 =>
      simp only [capsList, List.cons_append, List.cons.injEq] at h
      exact ih l1 c l2 h.2

/-- Any element of a good chain with `l1` entries before it and `l2` entries
after it has capacity `65536 * 2 ^ l2.length`, and the chain has at most 16
entries. -/
theorem goodCaps_decomp {l1 l2 : List Nat} {c : Nat}
    (h : goodCaps (l1 ++ c :: l2) = true) :
    c = 65536 * 2 ^ l2.length ∧ l1.length + l2.length ≤ 15 := by
  obtain ⟨n, hn1, hn16, heq⟩ := (goodCaps_iff _).mp h
  have hlen : n = l1.length + l2.length + 1 := by
    have hl := capsList_length n
    rw [← heq] at hl
    simp at hl
    omega
  have hc := capsList_decomp n l1 c l2 heq.symm
  rw [IC_val] at hc
  exact ⟨hc, by omega⟩

/-- C2 (amended): if any two tables of a well-formed chain — at arbitrary
positions, `t1` closer to the current table and `t0` closer to the tail —
hold the same non-zero hash, `collect` does not overwrite anything: the two
tables emit their entries under distinct IDs (the per-capacity ID ranges
are disjoint), and both entries appear in the output map, each with its own
value. -/
theorem C2_amended (s : CallTraceStorage) (pre mid post : List LongHashTable)
    (t1 t0 : LongHashTable)
    (hts : s.tables = pre ++ t1 :: mid ++ t0 :: post) (hwf : s.wf = true)
    (hash a b : Nat)
    (ha : a < t1.capacity) (hb : b < t0.capacity)
    (hk1 : t1.keys a = hash) (hk0 : t0.keys b = hash) (hhash : hash ≠ 0) :
    idFor t1.capacity a ≠ idFor t0.capacity b ∧
    mapLookup s.collect (idFor t1.capacity a) = some (t1.values a) ∧
    mapLookup s.collect (idFor t0.capacity b) = some (t0.values b) := by
  have hcaps : goodCaps ((pre ++ t1 :: mid ++ t0 :: post).map
      (fun x => x.capacity)) = true := by
    have hthis := hwf
    unfold CallTraceStorage.wf at hthis
    rw [hts] at hthis
    exact hthis
  have hsplit1 : (pre ++ t1 :: mid ++ t0 :: post).map (fun x => x.capacity) =
      pre.map (fun x => x.capacity) ++ t1.capacity ::
        (mid.map (fun x => x.capacity) ++ t0.capacity ::
          post.map (fun x => x.capacity)) := by
    simp
  have hsplit0 : (pre ++ t1 :: mid ++ t0 :: post).map (fun x => x.capacity) =
      (pre.map (fun x => x.capacity) ++ t1.capacity ::
        mid.map (fun x => x.capacity)) ++ t0.capacity ::
          post.map (fun x => x.capacity) := by
    simp
  have hd1 := goodCaps_decomp (by rw [← hsplit1]; exact hcaps)
  have hd0 := goodCaps_decomp (by rw [← hsplit0]; exact hcaps)
  have hc1val : t1.capacity =
      65536 * 2 ^ (mid.length + (post.length + 1)) := by
    have := hd1.1
    simpa using this
  have hc0val : t0.capacity = 65536 * 2 ^ post.length := by
    have := hd0.1
    simpa using this
  have hbound : mid.length + (post.length + 1) ≤ 15 := by
    have := hd0.2
    simp at this
    omega
  have hc0lo : 65536 ≤ t0.capacity := by
    rw [hc0val]
    have : 1 ≤ 2 ^ post.length := Nat.one_le_two_pow
    omega
  have hdouble : 2 * t0.capacity ≤ t1.capacity := by
    rw [hc0val, hc1val]
    have hp : 2 ^ (post.length + 1) ≤ 2 ^ (mid.length + (post.length + 1)) :=
      Nat.pow_le_pow_right (by omega) (by omega)
    have h2 : 2 * 2 ^ post.length = 2 ^ (post.length + 1) := by ring
    omega
  have hc1hi : t1.capacity ≤ 2147483648 := by
    rw [hc1val]
    have hp : 2 ^ (mid.length + (post.length + 1)) ≤ 2 ^ 15 :=
      Nat.pow_le_pow_right (by omega) hbound
    omega
  have hwfW : wfCapsW (s.tables.map (fun t => t.capacity)) = true := by
    rw [hts]
    exact goodCaps_wfCapsW hcaps
  refine ⟨?_, ?_, ?_⟩
  · exact (idFor_ne_of_lt_cap hc0lo hdouble hc1hi hb ha).symm
  · exact collect_lookup_occ hwfW (by rw [hts]; simp)
      ha (by rw [hk1]; exact hhash)
  · exact collect_lookup_occ hwfW (by rw [hts]; simp)
      hb (by rw [hk0]; exact hhash)

/-- Witness for the amended C2 on the concrete two-table chain holding hash
77 in both tables. -/
theorem C2_amended_witness :
    idFor 131072 4 ≠ idFor 65536 4 ∧
    mapLookup (CallTraceStorage.collect
      ⟨[⟨131072, fun s => if s = 4 then 77 else 0, fun s => if s = 4 then some 1 else none, 1⟩,
        ⟨65536, fun s => if s = 4 then 77 else 0, fun s => if s = 4 then some 0 else none, 1⟩],
       []⟩) (idFor 131072 4) = some (some 1) ∧
    mapLookup (CallTraceStorage.collect
      ⟨[⟨131072, fun s => if s = 4 then 77 else 0, fun s => if s = 4 then some 1 else none, 1⟩,
        ⟨65536, fun s => if s = 4 then 77 else 0, fun s => if s = 4 then some 0 else none, 1⟩],
       []⟩) (idFor 65536 4) = some (some 0) := by
  have h := C2_amended
    ⟨[⟨131072, fun s => if s = 4 then 77 else 0, fun s => if s = 4 then some 1 else none, 1⟩,
      ⟨65536, fun s => if s = 4 then 77 else 0, fun s => if s = 4 then some 0 else none, 1⟩],
     []⟩
    [] [] []
    ⟨131072, fun s => if s = 4 then 77 else 0, fun s => if s = 4 then some 1 else none, 1⟩
    ⟨65536, fun s => if s = 4 then 77 else 0, fun s => if s = 4 then some 0 else none, 1⟩
    rfl (by decide) 77 4 4 (by decide) (by decide)
    (by decide) (by decide) (by decide)
  exact h

/-! ### Claim C5 -/

theorem putHash_claim_wf_strict {s : CallTraceStorage} {t : LongHashTable}
    {rest : List LongHashTable} {hash slot : Nat} {g a : Bool} {nf : Nat}
    {fr : List Nat} (hwf : s.wf = true) (hts : s.tables = t :: rest)
    (hcapb : t.capacity ≤ 1073741824)
    (hp : probe t.keys t.capacity hash = ProbeResult.claim slot) :
    (s.putHash hash g a nf fr).2.wf = true := by
  have hcaps : goodCaps ((t :: rest).map (fun x => x.capacity)) = true := by
    have := hwf
    unfold CallTraceStorage.wf at this
    rw [hts] at this
    exact this
  obtain ⟨hcval0, hc10, hc20, hcs, hlen15⟩ := goodCaps_cons_head hcaps
  have hcval : t.capacity = 65536 * 2 ^ ((rest.map (fun x => x.capacity)).length) := hcval0
  rw [List.length_map] at hcval hcs hlen15
  have hc1 : 65536 ≤ t.capacity := hc10
  unfold CallTraceStorage.wf
  rw [putHash_claim hts hp]
  by_cases hg : g ∧ (t.size + 1) % U32 = t.capacity * 3 % U32 / 4
  · rw [if_pos hg]
    simp only [List.map_cons]
    show goodCaps ((freshTable (t.capacity * 2 % U32)).capacity ::
      (claimedTable t slot hash (claimStored s rest hash a nf fr).1).capacity ::
      rest.map (fun x => x.capacity)) = true
    have hclaimcap : (claimedTable t slot hash
        (claimStored s rest hash a nf fr).1).capacity = t.capacity := rfl
    have hfresh2 : (freshTable (t.capacity * 2 % U32)).capacity =
        2 * t.capacity := by
      show t.capacity * 2 % U32 = 2 * t.capacity
      rw [U32_val]
      rw [Nat.mod_eq_of_lt (by omega)]
      omega
    rw [hclaimcap, hfresh2]
    have hlen14 : rest.length ≤ 14 := by
      by_contra hgt
      have h15 : rest.length = 15 := by omega
      rw [h15] at hcval
      norm_num at hcval
      omega
    apply (goodCaps_iff _).mpr
    refine ⟨rest.length + 2, by omega, by omega, ?_⟩
    have htail : t.capacity :: rest.map (fun x => x.capacity) =
        capsList (rest.length + 1) := by
      show _ = (INITIAL_CAPACITY * 2 ^ rest.length) :: capsList rest.length
      rw [IC_val, ← hcval, ← hcs]
    show 2 * t.capacity :: t.capacity :: rest.map (fun x => x.capacity) =
      (INITIAL_CAPACITY * 2 ^ (rest.length + 1)) :: capsList (rest.length + 1)
    rw [← htail]
    have h2c : 2 * t.capacity = INITIAL_CAPACITY * 2 ^ (rest.length + 1) := by
      rw [hcval, Nat.pow_succ, IC_val]
      ring
    rw [h2c]
  · rw [if_neg hg]
    simp only [List.map_cons]
    show goodCaps ((claimedTable t slot hash
      (claimStored s rest hash a nf fr).1).capacity ::
      rest.map (fun x => x.capacity)) = true
    have hclaimcap : (claimedTable t slot hash
        (claimStored s rest hash a nf fr).1).capacity = t.capacity := rfl
    rw [hclaimcap]
    exact hcaps

/-- Preservation of the chain invariant by `clear`. -/
theorem clear_wf (s : CallTraceStorage) (h : s.wf = true) :
    s.clear.wf = true := by
  obtain ⟨tl, htl, hcap⟩ := tables_getLast_cap s.tables h
  unfold CallTraceStorage.clear CallTraceStorage.wf
  rw [htl]
  show goodCaps [(clearTable tl).capacity] = true
  have : (clearTable tl).capacity = tl.capacity := rfl
  rw [this, hcap]
  decide

/-- C5 (amended): for a well-formed chain whose current table's capacity is
at most `2^30` (so that the u32 products `capacity * 3` and `capacity * 2`
do not wrap), a `put` that claims a slot grows the chain exactly when the
post-increment size equals `capacity * 3 / 4` and growth is not refused by
the allocator; the new current table then has capacity `2 * capacity` with
the old current table as its predecessor; the chain invariant is preserved
by `put` (in every outcome) and by `clear`; and when the table allocation
fails the chain is unchanged and the claiming `put` still returns its valid
non-zero ID. -/
theorem C5_amended (s : CallTraceStorage) (t : LongHashTable)
    (rest : List LongHashTable) (hash : Nat) (g a : Bool) (nf : Nat)
    (fr : List Nat) (hwf : s.wf = true) (hts : s.tables = t :: rest)
    (hcapb : t.capacity ≤ 1073741824) :
    (∀ slot, probe t.keys t.capacity hash = ProbeResult.claim slot →
      ((s.putHash hash g a nf fr).2.tables.length = s.tables.length + 1 ↔
        g = true ∧ (t.size + 1) % U32 = t.capacity * 3 / 4) ∧
      (g = true → (t.size + 1) % U32 = t.capacity * 3 / 4 →
        ∃ t', (s.putHash hash g a nf fr).2.tables =
          freshTable (2 * t.capacity) :: t' :: rest ∧
          t'.capacity = t.capacity) ∧
      (g = false →
        (s.putHash hash g a nf fr).2.tables.length = s.tables.length ∧
        (s.putHash hash g a nf fr).1 = idFor t.capacity slot ∧
        (s.putHash hash g a nf fr).1 ≠ 0)) ∧
    (s.putHash hash g a nf fr).2.wf = true ∧
    s.clear.wf = true := by
  have hcaps : goodCaps ((t :: rest).map (fun x => x.capacity)) = true := by
    have := hwf
    unfold CallTraceStorage.wf at this
    rw [hts] at this
    exact this
  obtain ⟨hcval0, hc10, hc20, hcs, hlen15⟩ := goodCaps_cons_head hcaps
  have hc1 : 65536 ≤ t.capacity := hc10
  have hc2 : t.capacity ≤ 2147483648 := hc20
  have hth : t.capacity * 3 % U32 = t.capacity * 3 := by
    rw [U32_val]
    exact Nat.mod_eq_of_lt (by omega)
  constructor
  · intro slot hp
    have hslot : slot < t.capacity := by
      obtain ⟨m, hm16, hm31, hmeq⟩ := goodCaps_mem hcaps
        (by simp : (fun x => x.capacity) t ∈ (t :: rest).map (fun x => x.capacity))
      have hmeq' : t.capacity = 2 ^ m := hmeq
      have := probe_claim_inv (show m ≤ 32 by omega) (by rw [← hmeq']; exact hp)
      rw [← hmeq'] at this
      exact this.2.1
    refine ⟨?_, ?_, ?_⟩
    · rw [putHash_claim hts hp, hts]
      by_cases hg : g ∧ (t.size + 1) % U32 = t.capacity * 3 % U32 / 4
      · rw [if_pos hg]
        simp only [List.length_cons]
        rw [hth] at hg
        exact ⟨fun _ => hg, fun _ => by simp⟩
      · rw [if_neg hg]
        simp only [List.length_cons]
        rw [hth] at hg
        constructor
        · intro hlen
          omega
        · intro hcond
          exact absurd hcond hg
    · intro hgt hsz
      rw [putHash_claim hts hp]
      have hg : g ∧ (t.size + 1) % U32 = t.capacity * 3 % U32 / 4 := by
        rw [hth]
        exact ⟨hgt, hsz⟩
      rw [if_pos hg]
      refine ⟨claimedTable t slot hash (claimStored s rest hash a nf fr).1, ?_, rfl⟩
      have hfresh2 : t.capacity * 2 % U32 = 2 * t.capacity := by
        rw [U32_val]
        rw [Nat.mod_eq_of_lt (by omega)]
        omega
      rw [hfresh2]
    · intro hgf
      subst hgf
      rw [putHash_claim hts hp, hts]
      have hg : ¬((false = true) ∧ (t.size + 1) % U32 = t.capacity * 3 % U32 / 4) := by
        intro hc
        cases hc.1
      rw [if_neg hg]
      refine ⟨by simp, rfl, ?_⟩
      have := idFor_pos hc1 hc2 hslot
      omega
  · constructor
    · cases hp : probe t.keys t.capacity hash with
      | overflow =>
        rw [putHash_overflow hts hp]
        exact hwf
      | hit sl =>
        rw [putHash_hit hts hp]
        exact hwf
      | claim sl =>
        exact putHash_claim_wf_strict hwf hts hcapb hp
    · exact clear_wf s hwf

/-- A maximal well-formed chain: sixteen tables with capacities
`2^31, 2^30, ..., 2^16`; the head has one free slot (slot 3) and size
`2^29 - 1`, so the next claim makes the u32 expression
`capacity * 3 / 4 = 2^29` match. -/
def bigChain : CallTraceStorage :=
  { tables := ⟨2147483648, fun s => if s = 3 then 0 else 1, fun _ => none, 536870911⟩ ::
      (List.range 15).map (fun i => freshTable (65536 * 2 ^ (14 - i))),
    arena := [] }

/-- C5 (counterexample): from a state satisfying the chain invariant with
current capacity `2^31`, a claiming `put` attempts growth at post-increment
size `2^29`, which is not `capacity * 3 / 4 = 1610612736` (the u32 product
`capacity * 3` wraps), and installs a table of capacity
`2 * 2^31 mod 2^32 = 0`, breaking the invariant that each capacity is twice
its predecessor's. -/
theorem C5_counterexample :
    bigChain.wf = true ∧
    (536870911 + 1) % U32 ≠ 2147483648 * 3 / 4 ∧
    (bigChain.putHash 3 true true 1 [7]).2.tables.map (fun t => t.capacity) =
      0 :: 2147483648 :: (List.range 15).map (fun i => 65536 * 2 ^ (14 - i)) ∧
    goodCaps ((bigChain.putHash 3 true true 1 [7]).2.tables.map
      (fun t => t.capacity)) = false := by
  refine ⟨by decide, by decide, ?_, ?_⟩
  · decide
  · decide

/-- Witness for the amended C5 at the initial storage, with growth refused
(`growOk = false`): the chain stays at length 1, the claiming put returns
its valid non-zero ID, and the invariant is preserved. -/
theorem C5_amended_witness :
    ((CallTraceStorage.putHash initialStorage 5 false true 1 [7]).2.tables.length =
        initialStorage.tables.length ∧
      (CallTraceStorage.putHash initialStorage 5 false true 1 [7]).1 =
        idFor 65536 5 ∧
      (CallTraceStorage.putHash initialStorage 5 false true 1 [7]).1 ≠ 0) ∧
    (CallTraceStorage.putHash initialStorage 5 false true 1 [7]).2.wf = true ∧
    initialStorage.clear.wf = true := by
  have h := C5_amended initialStorage (freshTable INITIAL_CAPACITY) [] 5 false
    true 1 [7] (by decide) rfl (by decide)
  exact ⟨(h.1 5 (by decide)).2.2 rfl, h.2⟩

/-! ### Claim C10 -/

/-- C10 (amended): for every input trace whose hash is 0, provided the
current table still has an empty slot, `put` terminates at the first probed
slot whose key is 0 (the probe's hash test already matches there), returns
that slot's non-zero ID, leaves the store completely unchanged — no key is
written, the size is not incremented, nothing is allocated — and `collect`
has no entry for the returned ID. -/
theorem C10_amended (s : CallTraceStorage) (t : LongHashTable)
    (rest : List LongHashTable) (g a : Bool) (nf : Nat) (fr : List Nat)
    (hwf : s.wf = true) (hts : s.tables = t :: rest)
    (hhash : calcHash nf fr = 0)
    (hempty : ∃ sl, sl < t.capacity ∧ t.keys sl = 0) :
    (s.put g a nf fr).2 = s ∧
    (s.put g a nf fr).1 ≠ 0 ∧
    (∃ j0, j0 < t.capacity ∧ t.keys (probePos t.capacity 0 j0) = 0 ∧
      (∀ j, j < j0 → t.keys (probePos t.capacity 0 j) ≠ 0) ∧
      (s.put g a nf fr).1 = idFor t.capacity (probePos t.capacity 0 j0)) ∧
    mapLookup s.collect ((s.put g a nf fr).1) = none := by
  have hcaps : goodCaps ((t :: rest).map (fun x => x.capacity)) = true := by
    have := hwf
    unfold CallTraceStorage.wf at this
    rw [hts] at this
    exact this
  obtain ⟨hcval0, hc10, hc20, _, _⟩ := goodCaps_cons_head hcaps
  have hc1 : 65536 ≤ t.capacity := hc10
  have hc2 : t.capacity ≤ 2147483648 := hc20
  obtain ⟨m, hm16, hm31, hmeq⟩ := goodCaps_mem hcaps
    (by simp : (fun x => x.capacity) t ∈ (t :: rest).map (fun x => x.capacity))
  have hmeq' : t.capacity = 2 ^ m := hmeq
  have hm32 : m ≤ 32 := by omega
  have hput : s.put g a nf fr = s.putHash 0 g a nf fr := by
    unfold CallTraceStorage.put
    rw [hhash]
  rcases probe_cases hm32 t.keys 0 with ⟨_, hall⟩ | ⟨j0, hj0, hmin, hcase⟩
  · obtain ⟨sl, hsl, hz⟩ := hempty
    rw [hmeq'] at hsl
    exact absurd hz (hall sl hsl).2
  · rcases hcase with ⟨hk, hp⟩ | ⟨hne, hz, _⟩
    · have hp' : probe t.keys t.capacity 0 = ProbeResult.hit (probePos (2 ^ m) 0 j0) := by
        rw [hmeq']
        exact hp
      have hph : s.putHash 0 g a nf fr =
          (idFor t.capacity (probePos (2 ^ m) 0 j0), s) := putHash_hit hts hp'
      have hplt : probePos (2 ^ m) 0 j0 < t.capacity := by
        rw [hmeq']
        exact probePos_lt hm32 0 j0
      refine ⟨by rw [hput, hph], ?_, ?_, ?_⟩
      · rw [hput, hph]
        have := idFor_pos hc1 hc2 hplt
        omega
      · have hj0' : j0 < t.capacity := by rw [hmeq']; exact hj0
        have hk' : t.keys (probePos t.capacity 0 j0) = 0 := by
          rw [hmeq']; exact hk
        have hmin' : ∀ j, j < j0 → t.keys (probePos t.capacity 0 j) ≠ 0 := by
          intro j hj
          rw [hmeq']
          exact (hmin j hj).2
        exact ⟨j0, hj0', hk', hmin', by rw [hput, hph, hmeq']⟩
      · rw [hput, hph]
        exact collect_lookup_head_empty hts (by rw [hts]; exact hcaps) hplt hk
    · exact absurd hz hne

/-- Witness for the amended C10: the initial storage and the one-word trace
whose MurmurHash64A image is 0 (put returns ID 1 for slot 0 and stores
nothing). -/
theorem C10_amended_witness :
    (CallTraceStorage.put initialStorage true true 1 [18145131812871523816]).2 =
      initialStorage ∧
    (CallTraceStorage.put initialStorage true true 1 [18145131812871523816]).1 ≠ 0 ∧
    (∃ j0, j0 < 65536 ∧
      (freshTable INITIAL_CAPACITY).keys (probePos 65536 0 j0) = 0 ∧
      (∀ j, j < j0 → (freshTable INITIAL_CAPACITY).keys (probePos 65536 0 j) ≠ 0) ∧
      (CallTraceStorage.put initialStorage true true 1 [18145131812871523816]).1 =
        idFor 65536 (probePos 65536 0 j0)) ∧
    mapLookup initialStorage.collect
      ((CallTraceStorage.put initialStorage true true 1 [18145131812871523816]).1) =
      none := by
  have h := C10_amended initialStorage (freshTable INITIAL_CAPACITY) [] true true
    1 [18145131812871523816] (by decide) rfl (by decide) ⟨0, by decide, rfl⟩
  exact h

/-- C10 (counterexample): in a store whose current table is completely full
(every key non-zero), a `put` of the zero-hash trace does not return a
non-zero ID of an empty probed slot — there is none — but returns 0, so the
claim's unconditional reading fails. -/
theorem C10_counterexample :
    calcHash 1 [18145131812871523816] = 0 ∧
    CallTraceStorage.put
      ⟨[⟨65536, fun _ => 1, fun _ => none, 65536⟩], []⟩ true true
      1 [18145131812871523816] =
      (0, ⟨[⟨65536, fun _ => 1, fun _ => none, 65536⟩], []⟩) := by
  refine ⟨by decide, ?_⟩
  have hput : CallTraceStorage.put
      ⟨[⟨65536, fun _ => 1, fun _ => none, 65536⟩], []⟩ true true
      1 [18145131812871523816] =
      CallTraceStorage.putHash
        ⟨[⟨65536, fun _ => 1, fun _ => none, 65536⟩], []⟩ 0 true true
        1 [18145131812871523816] := by
    unfold CallTraceStorage.put
    rw [(by decide : calcHash 1 [18145131812871523816] = 0)]
  rw [hput]
  apply putHash_overflow rfl
  show probe (fun _ => 1) 65536 0 = ProbeResult.overflow
  have h16 : (65536 : Nat) = 2 ^ 16 := by decide
  rw [h16]
  exact probe_overflow_of_none (by omega) (fun _ => 1) 0
    (fun sl _ => ⟨(by decide : (1 : Nat) ≠ 0), (by decide : (1 : Nat) ≠ 0)⟩)

/-! ### Injectivity of the hash on one-word traces -/

/-- Multiplication by the odd Murmur constant, modulo 2^64. -/
def mulM (x : Nat) : Nat := x * M64 % U64

/-- The xorshift-by-47 mixing step. -/
def xsh (x : Nat) : Nat := x ^^^ (x >>> 47)

theorem U64_eq : U64 = 2 ^ 64 := by decide

theorem calcHash_one (k : Nat) :
    calcHash 1 [k] = xsh (mulM (xsh (mulM (mulM 8 ^^^ mulM (xsh (mulM k)))))) := by
  show calcHash 1 [k] = _
  unfold calcHash mixStep mulM xsh
  norm_num [List.range_succ]

theorem mulM_lt (x : Nat) : mulM x < U64 :=
  Nat.mod_lt _ (by decide)

theorem mulM_inj {a b : Nat} (ha : a < U64) (hb : b < U64)
    (h : mulM a = mulM b) : a = b := by
  have hco : Nat.gcd U64 M64 = 1 := by decide
  have hmod : a ≡ b [MOD U64] :=
    Nat.ModEq.cancel_right_of_coprime hco h
  calc a = a % U64 := (Nat.mod_eq_of_lt ha).symm
  _ = b % U64 := hmod
  _ = b := Nat.mod_eq_of_lt hb

theorem shiftRight_xor_distrib (a b n : Nat) :
    (a ^^^ b) >>> n = (a >>> n) ^^^ (b >>> n) := by
  apply Nat.eq_of_testBit_eq
  intro i
  simp [Nat.testBit_shiftRight, Nat.testBit_xor]

theorem xsh_lt {x : Nat} (hx : x < U64) : xsh x < U64 := by
  rw [U64_eq] at hx ⊢
  exact Nat.xor_lt_two_pow hx
    (lt_of_le_of_lt (by rw [Nat.shiftRight_eq_div_pow]; exact Nat.div_le_self _ _) hx)

theorem xsh_xsh {x : Nat} (hx : x < U64) : xsh (xsh x) = x := by
  unfold xsh
  have hy : x >>> 47 < 2 ^ 17 := by
    rw [Nat.shiftRight_eq_div_pow]
    apply Nat.div_lt_of_lt_mul
    rw [U64_eq] at hx
    calc x < 2 ^ 64 := hx
    _ = 2 ^ 17 * 2 ^ 47 := by norm_num
  have hy0 : (x >>> 47) >>> 47 = 0 := by
    rw [Nat.shiftRight_eq_div_pow]
    apply Nat.div_eq_of_lt
    calc x >>> 47 < 2 ^ 17 := hy
    _ ≤ 2 ^ 47 := by norm_num
  rw [shiftRight_xor_distrib, hy0, Nat.xor_zero, Nat.xor_assoc, Nat.xor_self,
    Nat.xor_zero]

theorem xsh_inj {a b : Nat} (ha : a < U64) (hb : b < U64)
    (h : xsh a = xsh b) : a = b := by
  rw [← xsh_xsh ha, h, xsh_xsh hb]

theorem xor_left_inj {c a b : Nat} (h : c ^^^ a = c ^^^ b) : a = b := by
  have := congrArg (fun z => c ^^^ z) h
  simpa [← Nat.xor_assoc, Nat.xor_self, Nat.zero_xor] using this

/-- The hash of a one-word trace determines the word: MurmurHash64A is a
bijection on single 8-byte blocks. -/
theorem calcHash_one_inj {k k' : Nat} (hk : k < U64) (hk' : k' < U64)
    (h : calcHash 1 [k] = calcHash 1 [k']) : k = k' := by
  rw [calcHash_one, calcHash_one] at h
  have hxor : ∀ x : Nat, mulM 8 ^^^ mulM x < U64 := by
    intro x
    rw [U64_eq]
    exact Nat.xor_lt_two_pow (by rw [← U64_eq]; exact mulM_lt 8)
      (by rw [← U64_eq]; exact mulM_lt x)
  have h1 : mulM (xsh (mulM (mulM 8 ^^^ mulM (xsh (mulM k))))) =
      mulM (xsh (mulM (mulM 8 ^^^ mulM (xsh (mulM k'))))) :=
    xsh_inj (mulM_lt _) (mulM_lt _) h
  have h2 : xsh (mulM (mulM 8 ^^^ mulM (xsh (mulM k)))) =
      xsh (mulM (mulM 8 ^^^ mulM (xsh (mulM k')))) :=
    mulM_inj (xsh_lt (mulM_lt _)) (xsh_lt (mulM_lt _)) h1
  have h3 : mulM (mulM 8 ^^^ mulM (xsh (mulM k))) =
      mulM (mulM 8 ^^^ mulM (xsh (mulM k'))) :=
    xsh_inj (mulM_lt _) (mulM_lt _) h2
  have h4 : mulM 8 ^^^ mulM (xsh (mulM k)) =
      mulM 8 ^^^ mulM (xsh (mulM k')) :=
    mulM_inj (hxor _) (hxor _) h3
  have h5 : mulM (xsh (mulM k)) = mulM (xsh (mulM k')) := xor_left_inj h4
  have h6 : xsh (mulM k) = xsh (mulM k') :=
    mulM_inj (xsh_lt (mulM_lt _)) (xsh_lt (mulM_lt _)) h5
  have h7 : mulM k = mulM k' := xsh_inj (mulM_lt _) (mulM_lt _) h6
  exact mulM_inj hk hk' h7

/-! ### Sequential fill executions -/

/-- Number of occupied slots of a table. -/
def occCount (t : LongHashTable) : Nat :=
  ((List.range t.capacity).filter (fun s => decide (t.keys s ≠ 0))).length

/-- The hash a recorded `put` call computes. -/
def hashOfCall (c : PutCall) : Nat := calcHash c.num_frames c.frames

theorem filter_update_length {l : List Nat} (hnd : l.Nodup) {slot : Nat}
    (hmem : slot ∈ l) (p q : Nat → Bool) (hpq : ∀ x, x ≠ slot → q x = p x)
    (hps : p slot = false) (hqs : q slot = true) :
    (l.filter q).length = (l.filter p).length + 1 := by
  induction l with
  | nil => cases hmem
  | cons a l ih =>
    rcases List.nodup_cons.mp hnd with ⟨hanl, hndl⟩
    by_cases ha : a = slot
    · subst ha
      have hfq : (a :: l).filter q = a :: l.filter q := by
        rw [List.filter_cons, if_pos (by rw [hqs])]
      have hfp : (a :: l).filter p = l.filter p := by
        rw [List.filter_cons, if_neg (by rw [hps]; simp)]
      have hcongr : l.filter q = l.filter p :=
        List.filter_congr (fun x hx => hpq x (fun hc => hanl (hc ▸ hx)))
      rw [hfq, hfp, hcongr, List.length_cons]
    · have hmeml : slot ∈ l := by
        rcases List.mem_cons.mp hmem with hc | hc
        · exact absurd hc.symm ha
        · exact hc
      have hqa : q a = p a := hpq a ha
      by_cases hpa : p a = true
      · rw [List.filter_cons, List.filter_cons, if_pos (by rw [hqa]; exact hpa),
          if_pos hpa]
        simp only [List.length_cons]
        rw [ih hndl hmeml]
      · rw [List.filter_cons, List.filter_cons, if_neg (by rw [hqa]; simpa using hpa),
          if_neg (by simpa using hpa)]
        exact ih hndl hmeml

theorem occCount_claimed {t : LongHashTable} {slot hash : Nat}
    (hs : slot < t.capacity) (hz : t.keys slot = 0) (hh : hash ≠ 0)
    (v : Option Nat) :
    occCount (claimedTable t slot hash v) = occCount t + 1 := by
  unfold occCount
  have hcap : (claimedTable t slot hash v).capacity = t.capacity := rfl
  rw [hcap]
  apply filter_update_length (List.nodup_range _) (List.mem_range.mpr hs)
  · intro x hx
    show decide ((if x = slot then hash else t.keys x) ≠ 0) = _
    rw [if_neg hx]
  · rw [hz]
    simp
  · show decide ((if slot = slot then hash else t.keys slot) ≠ 0) = true
    rw [if_pos rfl]
    simpa using hh

theorem occCount_lt_exists {t : LongHashTable} (h : occCount t < t.capacity) :
    ∃ sl, sl < t.capacity ∧ t.keys sl = 0 := by
  unfold occCount at h
  rw [← List.countP_eq_length_filter] at h
  have hlen : (List.range t.capacity).length = t.capacity := List.length_range _
  by_contra hc
  push_neg at hc
  have hall : ∀ x ∈ List.range t.capacity,
      (fun s => decide (t.keys s ≠ 0)) x = true := by
    intro x hx
    simpa using hc x (List.mem_range.mp hx)
  rw [List.countP_eq_length.mpr hall, hlen] at h
  omega

/-- One `put` of a fresh non-zero hash into a single-table store below the
growth threshold: the hash claims one previously empty slot, the size and
occupancy go up by one, and no growth happens. -/
theorem fill_step {s : CallTraceStorage} {t : LongHashTable} {S : List Nat}
    {h : Nat} (hts : s.tables = [t]) (hcap : t.capacity = 65536)
    (hocc : occCount t = t.size) (hsz : t.size + 1 < 49152)
    (hkeys : ∀ sl, sl < 65536 → t.keys sl = 0 ∨ t.keys sl ∈ S)
    (hfresh : h ∉ S) (hh : h ≠ 0) (g a : Bool) (nf : Nat) (fr : List Nat) :
    ∃ t', (s.putHash h g a nf fr).2.tables = [t'] ∧ t'.capacity = 65536 ∧
      occCount t' = t'.size ∧ t'.size = t.size + 1 ∧
      (∀ sl, sl < 65536 → t'.keys sl = 0 ∨ t'.keys sl ∈ h :: S) := by
  have hcap16 : t.capacity = 2 ^ 16 := by rw [hcap]; decide
  have hfreshkeys : ∀ sl, sl < 2 ^ 16 → t.keys sl ≠ h := by
    intro sl hsl
    rcases hkeys sl (by simpa using hsl) with hz | hmem
    · rw [hz]; exact fun hc => hh hc.symm
    · exact fun hc => hfresh (hc ▸ hmem)
  have hempty : ∃ sl, sl < 2 ^ 16 ∧ t.keys sl = 0 := by
    have : occCount t < t.capacity := by omega
    obtain ⟨sl, hsl, hz⟩ := occCount_lt_exists this
    exact ⟨sl, by rw [← hcap16]; exact hsl, hz⟩
  obtain ⟨slot, hslot, hz, hp⟩ := probe_fresh_claims (by omega) hfreshkeys hempty
  have hp' : probe t.keys t.capacity h = ProbeResult.claim slot := by
    rw [hcap16]; exact hp
  have hslot' : slot < t.capacity := by rw [hcap16]; exact hslot
  rw [putHash_claim hts hp']
  have hnewsize : (t.size + 1) % U32 = t.size + 1 :=
    Nat.mod_eq_of_lt (by rw [U32_val]; omega)
  have hnogrow : ¬(g = true ∧ (t.size + 1) % U32 = t.capacity * 3 % U32 / 4) := by
    intro hc
    rw [hnewsize, hcap] at hc
    have : (65536 * 3 % U32 / 4) = 49152 := by decide
    omega
  rw [if_neg hnogrow]
  refine ⟨claimedTable t slot h (claimStored s [] h a nf fr).1, rfl, hcap, ?_, ?_, ?_⟩
  · rw [occCount_claimed hslot' hz hh]
    show occCount t + 1 = (t.size + 1) % U32
    rw [hnewsize, hocc]
  · exact hnewsize
  · intro sl hsl
    show (if sl = slot then h else t.keys sl) = 0 ∨
      (if sl = slot then h else t.keys sl) ∈ h :: S
    by_cases hss : sl = slot
    · rw [if_pos hss]
      right
      exact List.mem_cons_self _ _
    · rw [if_neg hss]
      rcases hkeys sl hsl with hz' | hmem
      · exact Or.inl hz'
      · exact Or.inr (List.mem_cons.mpr (Or.inr hmem))

/-- Running a sequence of `put` calls with pairwise-distinct fresh non-zero
hashes on a single sub-threshold table claims one slot per call and never
grows. -/
theorem fill_run (calls : List PutCall) :
    ∀ (s : CallTraceStorage) (t : LongHashTable) (S : List Nat),
    s.tables = [t] → t.capacity = 65536 → occCount t = t.size →
    (∀ sl, sl < 65536 → t.keys sl = 0 ∨ t.keys sl ∈ S) →
    t.size + calls.length < 49152 →
    (calls.map hashOfCall).Nodup →
    (∀ h ∈ calls.map hashOfCall, h ∉ S ∧ h ≠ 0) →
    ∃ t', (runPuts s calls).1.tables = [t'] ∧ t'.capacity = 65536 ∧
      occCount t' = t'.size ∧ t'.size = t.size + calls.length ∧
      (∀ sl, sl < 65536 → t'.keys sl = 0 ∨
        t'.keys sl ∈ calls.map hashOfCall ++ S) := by
  induction calls with
  | nil =>
    intro s t S hts hcap hocc hkeys _ _ _
    exact ⟨t, hts, hcap, hocc, rfl, fun sl hsl => hkeys sl hsl⟩
  | cons c cs ih =>
    intro s t S hts hcap hocc hkeys hsz hnd hfr
    obtain ⟨hfrS, hfrnz⟩ := hfr (hashOfCall c) (by simp)
    have hstep := fill_step hts hcap hocc
      (by simp only [List.length_cons] at hsz; omega) hkeys hfrS hfrnz
      c.growOk c.arenaOk c.num_frames c.frames
    obtain ⟨t1, ht1, hcap1, hocc1, hsize1, hkeys1⟩ := hstep
    have hput : (s.put c.growOk c.arenaOk c.num_frames c.frames).2 =
        (s.putHash (hashOfCall c) c.growOk c.arenaOk c.num_frames c.frames).2 := rfl
    have hrec := ih (s.put c.growOk c.arenaOk c.num_frames c.frames).2 t1
      (hashOfCall c :: S) (by rw [hput]; exact ht1) hcap1 hocc1 hkeys1
      (by
        rw [hsize1]
        simp only [List.length_cons] at hsz
        omega)
      (by
        simp only [List.map_cons, List.nodup_cons] at hnd
        exact hnd.2)
      (by
        intro h hmem
        have hmem' : h ∈ (c :: cs).map hashOfCall :=
          List.mem_cons.mpr (Or.inr hmem)
        obtain ⟨hS, hnz⟩ := hfr h hmem'
        refine ⟨?_, hnz⟩
        intro hc
        rcases List.mem_cons.mp hc with hc1 | hc2
        · simp only [List.map_cons, List.nodup_cons] at hnd
          exact hnd.1 (hc1 ▸ hmem)
        · exact hS hc2)
    obtain ⟨t', ht', hcap', hocc', hsize', hkeys'⟩ := hrec
    refine ⟨t', ?_, hcap', hocc', ?_, ?_⟩
    · show (runPuts (s.put c.growOk c.arenaOk c.num_frames c.frames).2 cs).1.tables = [t']
      exact ht'
    · rw [hsize', hsize1]
      simp only [List.length_cons]
      omega
    · intro sl hsl
      rcases hkeys' sl hsl with hz | hmem
      · exact Or.inl hz
      · right
        simp only [List.map_cons, List.cons_append]
        rcases List.mem_append.mp hmem with h1 | h2
        · exact List.mem_cons.mpr (Or.inr (List.mem_append.mpr (Or.inl h1)))
        · rcases List.mem_cons.mp h2 with h3 | h4
          · exact List.mem_cons.mpr (Or.inl h3)
          · exact List.mem_cons.mpr (Or.inr (List.mem_append.mpr (Or.inr h4)))

/-- The claiming `put` that raises the size to exactly `capacity * 3 / 4`
(49152 for the initial table) grows the chain: a fresh empty table of
capacity 131072 is installed in front. -/
theorem fill_grow_step {s : CallTraceStorage} {t : LongHashTable} {S : List Nat}
    {h : Nat} (hts : s.tables = [t]) (hcap : t.capacity = 65536)
    (hocc : occCount t = t.size) (hsz : t.size + 1 = 49152)
    (hkeys : ∀ sl, sl < 65536 → t.keys sl = 0 ∨ t.keys sl ∈ S)
    (hfresh : h ∉ S) (hh : h ≠ 0) (a : Bool) (nf : Nat) (fr : List Nat) :
    ∃ t', (s.putHash h true a nf fr).2.tables = [freshTable 131072, t'] := by
  have hcap16 : t.capacity = 2 ^ 16 := by rw [hcap]; decide
  have hfreshkeys : ∀ sl, sl < 2 ^ 16 → t.keys sl ≠ h := by
    intro sl hsl
    rcases hkeys sl (by simpa using hsl) with hz | hmem
    · rw [hz]; exact fun hc => hh hc.symm
    · exact fun hc => hfresh (hc ▸ hmem)
  have hempty : ∃ sl, sl < 2 ^ 16 ∧ t.keys sl = 0 := by
    have : occCount t < t.capacity := by omega
    obtain ⟨sl, hsl, hz⟩ := occCount_lt_exists this
    exact ⟨sl, by rw [← hcap16]; exact hsl, hz⟩
  obtain ⟨slot, hslot, hz, hp⟩ := probe_fresh_claims (by omega) hfreshkeys hempty
  have hp' : probe t.keys t.capacity h = ProbeResult.claim slot := by
    rw [hcap16]; exact hp
  rw [putHash_claim hts hp']
  have hnewsize : (t.size + 1) % U32 = 49152 := by
    rw [hsz, U32_val]
  have hgrow : true = true ∧ (t.size + 1) % U32 = t.capacity * 3 % U32 / 4 := by
    refine ⟨rfl, ?_⟩
    rw [hnewsize, hcap]
    decide
  rw [if_pos hgrow]
  refine ⟨claimedTable t slot h (claimStored s [] h a nf fr).1, ?_⟩
  have hfcap : t.capacity * 2 % U32 = 131072 := by
    rw [hcap]; decide
  rw [hfcap]

theorem occCount_fresh (c : Nat) : occCount (freshTable c) = 0 := by
  unfold occCount freshTable
  simp

theorem runPuts_cons (s : CallTraceStorage) (c : PutCall) (cs : List PutCall) :
    runPuts s (c :: cs) =
      ((runPuts (s.put c.growOk c.arenaOk c.num_frames c.frames).2 cs).1,
       (s.put c.growOk c.arenaOk c.num_frames c.frames).1 ::
         (runPuts (s.put c.growOk c.arenaOk c.num_frames c.frames).2 cs).2) := rfl

theorem runPuts_append (l1 : List PutCall) : ∀ (s : CallTraceStorage) (l2 : List PutCall),
    runPuts s (l1 ++ l2) =
      ((runPuts (runPuts s l1).1 l2).1,
       (runPuts s l1).2 ++ (runPuts (runPuts s l1).1 l2).2) := by
  induction l1 with
  | nil => intro s l2; rfl
  | cons c cs ih =>
    intro s l2
    rw [List.cons_append, runPuts_cons, runPuts_cons]
    rw [ih]
    rfl

theorem runPuts_append_fst (l1 : List PutCall) (s : CallTraceStorage)
    (l2 : List PutCall) :
    (runPuts s (l1 ++ l2)).1 = (runPuts (runPuts s l1).1 l2).1 := by
  rw [runPuts_append]

theorem runPuts_append_snd (l1 : List PutCall) (s : CallTraceStorage)
    (l2 : List PutCall) :
    (runPuts s (l1 ++ l2)).2 =
      (runPuts s l1).2 ++ (runPuts (runPuts s l1).1 l2).2 := by
  rw [runPuts_append]

theorem runPuts_ids_length (l : List PutCall) :
    ∀ s, (runPuts s l).2.length = l.length := by
  induction l with
  | nil => intro s; rfl
  | cons c cs ih =>
    intro s
    rw [runPuts_cons]
    simp only [List.length_cons, ih]

theorem hash1_ne_zero {i : Nat} (hi : i < U64)
    (hik : i ≠ 18145131812871523816) : calcHash 1 [i] ≠ 0 := by
  intro h
  have h0 : calcHash 1 [18145131812871523816] = 0 := by decide
  exact hik (calcHash_one_inj hi (by decide) (h.trans h0.symm))

theorem hash1_range_nodup (n : Nat) (hn : n ≤ U64) :
    ((List.range n).map (fun i => calcHash 1 [i])).Nodup := by
  apply List.Nodup.map_on
  · intro i hi j hj hij
    exact calcHash_one_inj (by have := List.mem_range.mp hi; omega)
      (by have := List.mem_range.mp hj; omega) hij
  · exact List.nodup_range n

theorem runPuts_one (s : CallTraceStorage) (g a : Bool) (nf : Nat)
    (fr : List Nat) :
    (runPuts s [⟨g, a, nf, fr⟩]).1 = (s.put g a nf fr).2 := rfl

/-! ### Claim C1 -/

/-- The fixed trace `T` of the C1 analysis: one frame, word `2^63`.  Its
hash is `9158703207903963431`, whose low 16 bits give slot 43303. -/
def traceT : PutCall := ⟨true, true, 1, [9223372036854775808]⟩

/-- 49151 filler traces with pairwise distinct non-zero hashes, enough to
raise the initial table's size from 1 to 49152 = 65536·3/4 and trigger
growth. -/
def fillP : List PutCall :=
  (List.range 49151).map (fun i => ⟨true, true, 1, [i]⟩)

/-- The C1 execution: put `T`, fill to the growth threshold, put `T` again. -/
def growRun : List PutCall := traceT :: (fillP ++ [traceT])

theorem fillP_split :
    fillP = (List.range 49150).map (fun i => (⟨true, true, 1, [i]⟩ : PutCall)) ++
      [⟨true, true, 1, [49150]⟩] := by
  unfold fillP
  rw [List.range_succ, List.map_append]
  rfl

theorem hashOfCall_fill :
    ∀ n, ((List.range n).map
        (fun i => (⟨true, true, 1, [i]⟩ : PutCall))).map hashOfCall =
      (List.range n).map (fun i => calcHash 1 [i]) := by
  intro n
  rw [List.map_map]
  rfl

/-- C1 (counterexample): in the concrete execution `growRun` — put the
fixed trace `T`, then 49151 distinct other traces (the 49152nd insertion
triggers growth to capacity 131072), then put the byte-identical `T` again —
the first put of `T` returns ID 43304 and the second returns ID 108840.
Two puts of a byte-identical trace separated by table growth thus return
different (both non-zero) IDs, refuting the claim. -/
theorem C1_counterexample :
    growRun.head? = some traceT ∧ growRun.getLast? = some traceT ∧
    (runPuts initialStorage growRun).2.head? = some 43304 ∧
    (runPuts initialStorage growRun).2.getLast? = some 108840 ∧
    (43304 : Nat) ≠ 108840 := by
  have hW : hashOfCall traceT = calcHash 1 [9223372036854775808] := rfl
  have hWnz : calcHash 1 [9223372036854775808] ≠ 0 :=
    hash1_ne_zero (by decide) (by decide)
  -- step 0: put T into the fresh store
  have hstep0 := fill_step (s := initialStorage) (t := freshTable INITIAL_CAPACITY)
    (S := []) (h := calcHash 1 [9223372036854775808]) rfl (by decide)
    (by rw [occCount_fresh]; rfl) (by decide) (fun sl _ => Or.inl rfl)
    (List.not_mem_nil _) hWnz true true 1 [9223372036854775808]
  obtain ⟨t1, ht1, hcap1, hocc1, hsize1, hkeys1⟩ := hstep0
  have hput0 : (initialStorage.put true true 1 [9223372036854775808]).2 =
      (initialStorage.putHash (calcHash 1 [9223372036854775808]) true true 1
        [9223372036854775808]).2 := rfl
  -- step 1: 49150 fresh fillers
  have hfreshmem : ∀ h ∈ ((List.range 49150).map
      (fun i => (⟨true, true, 1, [i]⟩ : PutCall))).map hashOfCall,
      h ∉ [calcHash 1 [9223372036854775808]] ∧ h ≠ 0 := by
    rw [hashOfCall_fill]
    intro h hmem
    obtain ⟨i, hi, rfl⟩ := List.mem_map.mp hmem
    have hilt := List.mem_range.mp hi
    constructor
    · intro hc
      rcases List.mem_cons.mp hc with hc1 | hc2
      · have := calcHash_one_inj (by rw [U64_eq]; omega) (by decide) hc1
        omega
      · cases hc2
    · exact hash1_ne_zero (by rw [U64_eq]; omega) (by omega)
  have hrun1 := fill_run ((List.range 49150).map
      (fun i => (⟨true, true, 1, [i]⟩ : PutCall)))
    (initialStorage.put true true 1 [9223372036854775808]).2 t1
    [calcHash 1 [9223372036854775808]]
    (by rw [hput0]; exact ht1) hcap1 hocc1 hkeys1
    (by
      rw [hsize1, List.length_map, List.length_range]
      decide)
    (by rw [hashOfCall_fill]; exact hash1_range_nodup 49150 (by decide))
    hfreshmem
  obtain ⟨t2, ht2, hcap2, hocc2, hsize2, hkeys2⟩ := hrun1
  have hsize2v : t2.size = 49151 := by
    rw [hsize2, hsize1, List.length_map, List.length_range]
    decide
  -- step 2: the growing put
  have hgrowfresh : calcHash 1 [49150] ∉
      ((List.range 49150).map
        (fun i => (⟨true, true, 1, [i]⟩ : PutCall))).map hashOfCall ++
      [calcHash 1 [9223372036854775808]] := by
    rw [hashOfCall_fill]
    intro hc
    rcases List.mem_append.mp hc with h1 | h2
    · obtain ⟨i, hi, heq⟩ := List.mem_map.mp h1
      have hilt := List.mem_range.mp hi
      have := calcHash_one_inj (by rw [U64_eq]; omega) (by decide) heq
      omega
    · rcases List.mem_cons.mp h2 with h3 | h4
      · have := calcHash_one_inj (by decide) (by decide) h3
        omega
      · cases h4
  have hgrow := fill_grow_step
    (s := (runPuts (initialStorage.put true true 1 [9223372036854775808]).2
      ((List.range 49150).map (fun i => (⟨true, true, 1, [i]⟩ : PutCall)))).1)
    (t := t2)
    (S := ((List.range 49150).map
      (fun i => (⟨true, true, 1, [i]⟩ : PutCall))).map hashOfCall ++
      [calcHash 1 [9223372036854775808]])
    (h := calcHash 1 [49150])
    ht2 hcap2 hocc2 (by rw [hsize2v]) hkeys2 hgrowfresh
    (hash1_ne_zero (by decide) (by decide)) true 1 [49150]
  obtain ⟨t3, ht3⟩ := hgrow
  -- assemble the run
  have hgr : growRun = traceT :: (fillP ++ [traceT]) := rfl
  rw [hgr, runPuts_cons]
  have hids2 : (runPuts (initialStorage.put true true 1
      [9223372036854775808]).2 (fillP ++ [traceT])).2 =
      (runPuts (initialStorage.put true true 1 [9223372036854775808]).2 fillP).2 ++
      [((runPuts (initialStorage.put true true 1 [9223372036854775808]).2 fillP).1.put
        true true 1 [9223372036854775808]).1] := by
    rw [runPuts_append_snd]
    rfl
  have hfinstate : (runPuts (initialStorage.put true true 1
      [9223372036854775808]).2 fillP).1.tables = [freshTable 131072, t3] := by
    rw [fillP_split, runPuts_append_fst, runPuts_one]
    have hputL : ((runPuts (initialStorage.put true true 1
        [9223372036854775808]).2 ((List.range 49150).map
          (fun i => (⟨true, true, 1, [i]⟩ : PutCall)))).1.put true true 1
        [49150]).2 =
        ((runPuts (initialStorage.put true true 1
        [9223372036854775808]).2 ((List.range 49150).map
          (fun i => (⟨true, true, 1, [i]⟩ : PutCall)))).1.putHash
          (calcHash 1 [49150]) true true 1 [49150]).2 := rfl
    rw [hputL]
    exact ht3
  have hlastid : ((runPuts (initialStorage.put true true 1
      [9223372036854775808]).2 fillP).1.put true true 1
      [9223372036854775808]).1 = 108840 := by
    have hp : probe (freshTable 131072).keys (freshTable 131072).capacity
        (calcHash 1 [9223372036854775808]) = ProbeResult.claim 43303 := by
      show probe (fun _ => 0) 131072 (calcHash 1 [9223372036854775808]) =
        ProbeResult.claim 43303
      decide
    have hres := putHash_claim (g := true) (a := true) (n := 1)
      (f := [9223372036854775808]) hfinstate hp
    have hput : ((runPuts (initialStorage.put true true 1
        [9223372036854775808]).2 fillP).1.put true true 1
        [9223372036854775808]) =
        ((runPuts (initialStorage.put true true 1
        [9223372036854775808]).2 fillP).1.putHash
          (calcHash 1 [9223372036854775808]) true true 1
          [9223372036854775808]) := rfl
    rw [hput, hres]
    show idFor (freshTable 131072).capacity 43303 = 108840
    decide
  refine ⟨rfl, ?_, ?_, ?_, by decide⟩
  · show (traceT :: (fillP ++ [traceT])).getLast? = some traceT
    rw [← List.cons_append]
    exact List.getLast?_concat _
  · show ((initialStorage.put true true 1 [9223372036854775808]).1 ::
      (runPuts _ (fillP ++ [traceT])).2).head? = some 43304
    have : (initialStorage.put true true 1 [9223372036854775808]).1 = 43304 := by
      decide
    rw [List.head?_cons, this]
  · show ((initialStorage.put true true 1 [9223372036854775808]).1 ::
      (runPuts (initialStorage.put true true 1 [9223372036854775808]).2
        (fillP ++ [traceT])).2).getLast? = some 108840
    rw [hids2, ← List.cons_append]
    rw [List.getLast?_concat, hlastid]

/-- A table extends another: same capacity, and every non-zero key is
preserved (keys are only ever written into empty slots). -/
def tableExt (t t' : LongHashTable) : Prop :=
  t'.capacity = t.capacity ∧ ∀ sl, t.keys sl ≠ 0 → t'.keys sl = t.keys sl

theorem tableExt_refl (t : LongHashTable) : tableExt t t :=
  ⟨rfl, fun _ _ => rfl⟩

theorem tableExt_trans {t1 t2 t3 : LongHashTable} (h12 : tableExt t1 t2)
    (h23 : tableExt t2 t3) : tableExt t1 t3 := by
  refine ⟨h23.1.trans h12.1, ?_⟩
  intro sl hnz
  have h2 := h12.2 sl hnz
  have h3 := h23.2 sl (by rw [h2]; exact hnz)
  rw [h3, h2]

theorem probeGo_claim_keys {keys : Nat → Nat} {cap hash : Nat} :
    ∀ fuel slot step s', probeGo keys cap hash fuel slot step =
      ProbeResult.claim s' → keys s' = 0 := by
  intro fuel
  induction fuel with
  | zero => intro slot step s' h; cases h
  | succ fuel ih =>
    intro slot step s' h
    rw [probeGo] at h
    by_cases h1 : keys slot = hash
    · rw [if_pos h1] at h; cases h
    · rw [if_neg h1] at h
      by_cases h2 : keys slot = 0
      · rw [if_pos h2] at h
        cases h
        exact h2
      · rw [if_neg h2] at h
        by_cases h3 : step + 1 ≥ cap
        · rw [if_pos h3] at h; cases h
        · rw [if_neg h3] at h
          exact ih _ _ _ h

theorem probe_claim_keys {keys : Nat → Nat} {cap hash s' : Nat}
    (h : probe keys cap hash = ProbeResult.claim s') : keys s' = 0 :=
  probeGo_claim_keys _ _ _ _ h

theorem putHash_length_mono (s : CallTraceStorage) (h : Nat) (g a : Bool)
    (nf : Nat) (fr : List Nat) :
    s.tables.length ≤ (s.putHash h g a nf fr).2.tables.length := by
  cases hts : s.tables with
  | nil =>
    unfold CallTraceStorage.putHash
    rw [hts]
    exact Nat.zero_le _
  | cons t rest =>
    cases hp : probe t.keys t.capacity h with
    | overflow => rw [putHash_overflow hts hp, hts]
    | hit sl => rw [putHash_hit hts hp, hts]
    | claim sl =>
      rw [putHash_claim hts hp]
      by_cases hg : g = true ∧ (t.size + 1) % U32 = t.capacity * 3 % U32 / 4
      · rw [if_pos hg]
        simp only [hts, List.length_cons]
        omega
      · rw [if_neg hg]
        simp only [hts, List.length_cons]
        omega

theorem runPuts_cons_fst (s : CallTraceStorage) (c : PutCall)
    (cs : List PutCall) :
    (runPuts s (c :: cs)).1 =
      (runPuts (s.put c.growOk c.arenaOk c.num_frames c.frames).2 cs).1 := rfl

theorem runPuts_length_mono (calls : List PutCall) :
    ∀ s : CallTraceStorage,
    s.tables.length ≤ (runPuts s calls).1.tables.length := by
  induction calls with
  | nil => intro s; exact Nat.le_refl _
  | cons c cs ih =>
    intro s
    rw [runPuts_cons]
    exact Nat.le_trans (putHash_length_mono s _ c.growOk c.arenaOk
      c.num_frames c.frames) (ih _)

theorem putHash_ext_of_len_eq {s : CallTraceStorage} {t : LongHashTable}
    {rest : List LongHashTable} {h : Nat} {g a : Bool} {nf : Nat}
    {fr : List Nat} (hts : s.tables = t :: rest)
    (hlen : (s.putHash h g a nf fr).2.tables.length = s.tables.length) :
    ∃ t', (s.putHash h g a nf fr).2.tables = t' :: rest ∧ tableExt t t' := by
  cases hp : probe t.keys t.capacity h with
  | overflow =>
    rw [putHash_overflow hts hp]
    exact ⟨t, hts, tableExt_refl t⟩
  | hit sl =>
    rw [putHash_hit hts hp]
    exact ⟨t, hts, tableExt_refl t⟩
  | claim sl =>
    have hz : t.keys sl = 0 := probe_claim_keys hp
    rw [putHash_claim hts hp] at hlen ⊢
    by_cases hg : g = true ∧ (t.size + 1) % U32 = t.capacity * 3 % U32 / 4
    · rw [if_pos hg] at hlen
      rw [hts] at hlen
      simp at hlen
    · rw [if_neg hg]
      refine ⟨claimedTable t sl h (claimStored s rest h a nf fr).1, rfl, rfl, ?_⟩
      intro sl' hnz
      show (if sl' = sl then h else t.keys sl') = t.keys sl'
      by_cases hss : sl' = sl
      · subst hss
        exact absurd hz hnz
      · rw [if_neg hss]

theorem runPuts_ext (calls : List PutCall) :
    ∀ (s : CallTraceStorage) (t : LongHashTable) (rest : List LongHashTable),
    s.tables = t :: rest →
    (runPuts s calls).1.tables.length = s.tables.length →
    ∃ t', (runPuts s calls).1.tables = t' :: rest ∧ tableExt t t' := by
  induction calls with
  | nil =>
    intro s t rest hts _
    exact ⟨t, hts, tableExt_refl t⟩
  | cons c cs ih =>
    intro s t rest hts hlen
    rw [runPuts_cons_fst] at hlen ⊢
    have hmono1 : s.tables.length ≤
        (s.put c.growOk c.arenaOk c.num_frames c.frames).2.tables.length :=
      putHash_length_mono s (calcHash c.num_frames c.frames) c.growOk
        c.arenaOk c.num_frames c.frames
    have hmono2 := runPuts_length_mono cs
      (s.put c.growOk c.arenaOk c.num_frames c.frames).2
    have hlen1 : (s.put c.growOk c.arenaOk c.num_frames c.frames).2.tables.length =
        s.tables.length := by omega
    have hlenput : (s.putHash (calcHash c.num_frames c.frames) c.growOk
        c.arenaOk c.num_frames c.frames).2.tables.length = s.tables.length := hlen1
    obtain ⟨t1, ht1, hext1⟩ := putHash_ext_of_len_eq hts hlenput
    have ht1' : (s.put c.growOk c.arenaOk c.num_frames c.frames).2.tables =
        t1 :: rest := ht1
    obtain ⟨t2, ht2, hext2⟩ := ih _ t1 rest ht1' (by omega)
    exact ⟨t2, ht2, tableExt_trans hext1 hext2⟩

/-- C1 (amended): for a fixed trace `T` with non-zero hash, two `put(T)`
calls return the same non-zero ID provided the current table is not
replaced in between: if a first `put(T)` succeeds (non-zero ID) and a
sequence of further puts leaves the chain length unchanged (no growth), a
second `put(T)` returns exactly the first ID.  (The counterexample shows
the claim fails without this proviso: growth in between changes the ID.) -/
theorem C1_amended (s : CallTraceStorage) (t : LongHashTable)
    (rest : List LongHashTable) (nf : Nat) (fr : List Nat)
    (g a g' a' : Bool) (calls : List PutCall)
    (hwf : s.wf = true) (hts : s.tables = t :: rest)
    (hhash : calcHash nf fr ≠ 0)
    (hid : (s.put g a nf fr).1 ≠ 0)
    (hlen : (runPuts (s.put g a nf fr).2 calls).1.tables.length =
      s.tables.length) :
    ((runPuts (s.put g a nf fr).2 calls).1.put g' a' nf fr).1 =
      (s.put g a nf fr).1 := by
  have hcaps : goodCaps ((t :: rest).map (fun x => x.capacity)) = true := by
    have := hwf
    unfold CallTraceStorage.wf at this
    rw [hts] at this
    exact this
  obtain ⟨m, hm16, hm31, hmeq⟩ := goodCaps_mem hcaps
    (by simp : (fun x => x.capacity) t ∈ (t :: rest).map (fun x => x.capacity))
  have hmeq' : t.capacity = 2 ^ m := hmeq
  have hm32 : m ≤ 32 := by omega
  have hputeq : s.put g a nf fr =
      s.putHash (calcHash nf fr) g a nf fr := rfl
  rcases probe_cases hm32 t.keys (calcHash nf fr) with ⟨hov, _⟩ |
    ⟨j0, hj0, hmin, hcase⟩
  · exfalso
    apply hid
    rw [hputeq, putHash_overflow hts (by rw [hmeq']; exact hov)]
  · have hbundle : ∃ t1, (s.put g a nf fr).2.tables = t1 :: rest ∧
        t1.capacity = t.capacity ∧
        t1.keys (probePos (2 ^ m) (calcHash nf fr) j0) = calcHash nf fr ∧
        (∀ j, j < j0 → t1.keys (probePos (2 ^ m) (calcHash nf fr) j) =
          t.keys (probePos (2 ^ m) (calcHash nf fr) j)) ∧
        (s.put g a nf fr).1 =
          idFor t.capacity (probePos (2 ^ m) (calcHash nf fr) j0) := by
      rcases hcase with ⟨hk, hpr⟩ | ⟨hne, hz, hpr⟩
      · have hpr' : probe t.keys t.capacity (calcHash nf fr) =
            ProbeResult.hit (probePos (2 ^ m) (calcHash nf fr) j0) := by
          rw [hmeq']; exact hpr
        rw [hputeq, putHash_hit hts hpr']
        exact ⟨t, hts, rfl, hk, fun j _ => rfl, rfl⟩
      · have hpr' : probe t.keys t.capacity (calcHash nf fr) =
            ProbeResult.claim (probePos (2 ^ m) (calcHash nf fr) j0) := by
          rw [hmeq']; exact hpr
        rw [hputeq, putHash_claim hts hpr'] at hlen ⊢
        by_cases hg : g = true ∧ (t.size + 1) % U32 = t.capacity * 3 % U32 / 4
        · exfalso
          rw [if_pos hg] at hlen
          have hmono := runPuts_length_mono calls
            (⟨freshTable (t.capacity * 2 % U32) ::
              claimedTable t (probePos (2 ^ m) (calcHash nf fr) j0)
                (calcHash nf fr)
                (claimStored s rest (calcHash nf fr) a nf fr).1 :: rest,
              (claimStored s rest (calcHash nf fr) a nf fr).2⟩ :
              CallTraceStorage)
          simp only [List.length_cons] at hmono hlen
          rw [hts] at hlen
          simp only [List.length_cons] at hlen
          omega
        · rw [if_neg hg]
          refine ⟨claimedTable t (probePos (2 ^ m) (calcHash nf fr) j0)
            (calcHash nf fr)
            (claimStored s rest (calcHash nf fr) a nf fr).1, rfl, rfl, ?_, ?_, rfl⟩
          · show (if probePos (2 ^ m) (calcHash nf fr) j0 =
              probePos (2 ^ m) (calcHash nf fr) j0 then calcHash nf fr
              else _) = calcHash nf fr
            rw [if_pos rfl]
          · intro j hj
            show (if probePos (2 ^ m) (calcHash nf fr) j =
              probePos (2 ^ m) (calcHash nf fr) j0 then calcHash nf fr
              else t.keys (probePos (2 ^ m) (calcHash nf fr) j)) = _
            rw [if_neg (probePos_injOn hm32 (calcHash nf fr)
              (by omega) hj0 (by omega))]
    obtain ⟨t1, ht1, hcap1, hkey1, hpre1, hid1⟩ := hbundle
    have hlen1 : (runPuts (s.put g a nf fr).2 calls).1.tables.length =
        (s.put g a nf fr).2.tables.length := by
      rw [ht1, hts] at *
      simp only [List.length_cons] at *
      omega
    obtain ⟨t2, ht2, hext⟩ := runPuts_ext calls (s.put g a nf fr).2 t1 rest
      ht1 hlen1
    have hcap2 : t2.capacity = 2 ^ m := by
      rw [hext.1, hcap1, hmeq']
    have hkey2 : t2.keys (probePos (2 ^ m) (calcHash nf fr) j0) =
        calcHash nf fr := by
      rw [hext.2 _ (by rw [hkey1]; exact hhash), hkey1]
    have hpre2 : ∀ j, j < j0 →
        t2.keys (probePos (2 ^ m) (calcHash nf fr) j) =
        t.keys (probePos (2 ^ m) (calcHash nf fr) j) := by
      intro j hj
      have hnz : t.keys (probePos (2 ^ m) (calcHash nf fr) j) ≠ 0 :=
        (hmin j hj).2
      have h1 : t1.keys (probePos (2 ^ m) (calcHash nf fr) j) =
          t.keys (probePos (2 ^ m) (calcHash nf fr) j) := hpre1 j hj
      rw [hext.2 _ (by rw [h1]; exact hnz), h1]
    have hprobe2 : probe t2.keys (2 ^ m) (calcHash nf fr) =
        ProbeResult.hit (probePos (2 ^ m) (calcHash nf fr) j0) := by
      have hrun := probe_found Nat.one_le_two_pow t2.keys (calcHash nf fr)
        j0 hj0 (Or.inl hkey2)
        (fun j hj => by
          rw [hpre2 j hj]
          exact hmin j hj)
      rw [hrun, if_pos hkey2]
    have hprobe2' : probe t2.keys t2.capacity (calcHash nf fr) =
        ProbeResult.hit (probePos (2 ^ m) (calcHash nf fr) j0) := by
      rw [hcap2]; exact hprobe2
    have hput2 : ((runPuts (s.put g a nf fr).2 calls).1.put g' a' nf fr) =
        ((runPuts (s.put g a nf fr).2 calls).1.putHash (calcHash nf fr)
          g' a' nf fr) := rfl
    rw [hput2, putHash_hit ht2 hprobe2', hid1, hext.1, hcap1]

/-- Witness for the amended C1: two consecutive puts of the trace `(1, [5])`
into the initial storage return the same ID. -/
theorem C1_amended_witness :
    ((runPuts (CallTraceStorage.put initialStorage true true 1 [5]).2 []).1.put
      true true 1 [5]).1 = (CallTraceStorage.put initialStorage true true 1 [5]).1 :=
  C1_amended initialStorage (freshTable INITIAL_CAPACITY) [] 1 [5] true true
    true true [] (by decide) rfl (by decide) (by decide) (by decide)

/-! ### Claim C7 -/

theorem filter_update_perm {l : List Nat} (hnd : l.Nodup) {slot : Nat}
    (hmem : slot ∈ l) (p q : Nat → Bool) (hpq : ∀ x, x ≠ slot → q x = p x)
    (hps : p slot = false) (hqs : q slot = true) :
    List.Perm (l.filter q) (slot :: l.filter p) := by
  induction l with
  | nil => cases hmem
  | cons a l ih =>
    rcases List.nodup_cons.mp hnd with ⟨hanl, hndl⟩
    by_cases ha : a = slot
    · subst ha
      have hfq : (a :: l).filter q = a :: l.filter q := by
        rw [List.filter_cons, if_pos (by rw [hqs])]
      have hfp : (a :: l).filter p = l.filter p := by
        rw [List.filter_cons, if_neg (by rw [hps]; simp)]
      have hcongr : l.filter q = l.filter p :=
        List.filter_congr (fun x hx => hpq x (fun hc => hanl (hc ▸ hx)))
      rw [hfq, hfp, hcongr]
    · have hmeml : slot ∈ l := by
        rcases List.mem_cons.mp hmem with hc | hc
        · exact absurd hc.symm ha
        · exact hc
      have hqa : q a = p a := hpq a ha
      by_cases hpa : p a = true
      · rw [List.filter_cons, List.filter_cons, if_pos (by rw [hqa]; exact hpa),
          if_pos hpa]
        exact ((ih hndl hmeml).cons a).trans (List.Perm.swap slot a _)
      · rw [List.filter_cons, List.filter_cons,
          if_neg (by rw [hqa]; simpa using hpa), if_neg (by simpa using hpa)]
        exact ih hndl hmeml

theorem idsOf_claimed_perm {t : LongHashTable} {slot hash : Nat}
    (hs : slot < t.capacity) (hz : t.keys slot = 0) (hh : hash ≠ 0)
    (v : Option Nat) :
    List.Perm (idsOf (claimedTable t slot hash v))
      (idFor t.capacity slot :: idsOf t) := by
  unfold idsOf occPairs
  rw [List.map_map, List.map_map]
  have hcap : (claimedTable t slot hash v).capacity = t.capacity := rfl
  rw [hcap]
  have hperm := filter_update_perm (List.nodup_range t.capacity)
    (List.mem_range.mpr hs)
    (fun s => decide (t.keys s ≠ 0))
    (fun s => decide ((claimedTable t slot hash v).keys s ≠ 0))
    (fun x hx => by
      show decide ((if x = slot then hash else t.keys x) ≠ 0) = _
      rw [if_neg hx])
    (by
      show decide (t.keys slot ≠ 0) = false
      rw [hz]
      simp)
    (by
      show decide ((if slot = slot then hash else t.keys slot) ≠ 0) = true
      rw [if_pos rfl]
      simpa using hh)
  have hmap := hperm.map (fun s => idFor t.capacity s)
  simpa using hmap

theorem idsOf_fresh (c : Nat) : idsOf (freshTable c) = [] := by
  unfold idsOf occPairs freshTable
  simp

/-- The coverage invariant of a sequential run with distinct non-zero
hashes: the chain is well formed (up to a transient zero-capacity head),
the IDs of the occupied slots are a permutation of the IDs returned so far,
and every stored key is one of the hashes put so far. -/
def InvC7 (s : CallTraceStorage) (hs ids : List Nat) : Prop :=
  wfCapsW (s.tables.map (fun t => t.capacity)) = true ∧
  List.Perm ((s.tables.map idsOf).flatten) ids ∧
  ∀ t ∈ s.tables, ∀ sl, sl < t.capacity → t.keys sl = 0 ∨ t.keys sl ∈ hs

theorem probe_cap_zero (keys : Nat → Nat) (hash : Nat) :
    probe keys 0 hash = ProbeResult.overflow := rfl

theorem C7_step {s : CallTraceStorage} {hs ids : List Nat} {h : Nat}
    (g a : Bool) (nf : Nat) (fr : List Nat)
    (hinv : InvC7 s hs ids) (hfresh : h ∉ hs) (hnz : h ≠ 0)
    (hidnz : (s.putHash h g a nf fr).1 ≠ 0) :
    InvC7 (s.putHash h g a nf fr).2 (hs ++ [h])
      (ids ++ [(s.putHash h g a nf fr).1]) := by
  obtain ⟨hwfW, hperm, hkeys⟩ := hinv
  cases hts : s.tables with
  | nil =>
    exfalso
    apply hidnz
    unfold CallTraceStorage.putHash
    rw [hts]
  | cons t rest =>
    rw [hts] at hwfW
    have hperm2 : List.Perm (((t :: rest).map idsOf).flatten) ids := by
      rw [← hts]
      exact hperm
    have hcapcase : goodCaps ((t :: rest).map (fun x => x.capacity)) = true ∨
        t.capacity = 0 := by
      unfold wfCapsW at hwfW
      rw [Bool.or_eq_true] at hwfW
      rcases hwfW with hg | hz
      · exact Or.inl hg
      · simp only [List.map_cons] at hz
        cases hc : t.capacity with
        | zero => exact Or.inr rfl
        | succ n =>
          rw [hc] at hz
          simp at hz
    rcases hcapcase with hgood | hcap0
    · obtain ⟨m, hm16, hm31, hmeq⟩ := goodCaps_mem hgood
        (by simp : (fun x => x.capacity) t ∈ (t :: rest).map (fun x => x.capacity))
      have hmeq' : t.capacity = 2 ^ m := hmeq
      have hm32 : m ≤ 32 := by omega
      cases hp : probe t.keys t.capacity h with
      | overflow =>
        exfalso
        apply hidnz
        rw [putHash_overflow hts hp]
      | hit sl =>
        exfalso
        have hinv' := probe_hit_inv hm32 (by rw [← hmeq']; exact hp)
        rcases hkeys t (by rw [hts]; exact List.mem_cons_self _ _) sl
          (by rw [hmeq']; exact hinv'.2) with hz | hmem
        · exact hnz (by rw [← hinv'.1, hz])
        · exact hfresh (by rw [← hinv'.1]; exact hmem)
      | claim sl =>
        have hclaim := probe_claim_inv hm32 (by rw [← hmeq']; exact hp)
        have hslot : sl < t.capacity := by rw [hmeq']; exact hclaim.2.1
        have hz : t.keys sl = 0 := hclaim.1
        have hwfs : s.wf = true := by
          unfold CallTraceStorage.wf
          rw [hts]
          exact hgood
        have hwfW' := putHash_claim_wfCapsW (g := g) (a := a) (n := nf)
          (f := fr) hwfs hts hp
        have hperm1 : List.Perm (idsOf (claimedTable t sl h
            (claimStored s rest h a nf fr).1))
            (idFor t.capacity sl :: idsOf t) :=
          idsOf_claimed_perm hslot hz hnz _
        have hperm3 : List.Perm
            (idsOf (claimedTable t sl h (claimStored s rest h a nf fr).1) ++
              (rest.map idsOf).flatten)
            (idFor t.capacity sl :: (idsOf t ++ (rest.map idsOf).flatten)) :=
          hperm1.append_right ((rest.map idsOf).flatten)
        have hmain : List.Perm
            (((if g = true ∧ (t.size + 1) % U32 = t.capacity * 3 % U32 / 4 then
              freshTable (t.capacity * 2 % U32) ::
                claimedTable t sl h (claimStored s rest h a nf fr).1 :: rest
            else claimedTable t sl h
              (claimStored s rest h a nf fr).1 :: rest).map idsOf).flatten)
            (idFor t.capacity sl :: ((t :: rest).map idsOf).flatten) := by
          by_cases hg : g = true ∧ (t.size + 1) % U32 = t.capacity * 3 % U32 / 4
          · rw [if_pos hg]
            show List.Perm (idsOf (freshTable (t.capacity * 2 % U32)) ++
              (idsOf (claimedTable t sl h (claimStored s rest h a nf fr).1) ++
                (rest.map idsOf).flatten))
              (idFor t.capacity sl :: ((t :: rest).map idsOf).flatten)
            rw [idsOf_fresh, List.nil_append]
            exact hperm3
          · rw [if_neg hg]
            exact hperm3
        refine ⟨hwfW', ?_, ?_⟩
        · rw [putHash_claim hts hp]
          show List.Perm
            (((if g = true ∧ (t.size + 1) % U32 = t.capacity * 3 % U32 / 4 then
              freshTable (t.capacity * 2 % U32) ::
                claimedTable t sl h (claimStored s rest h a nf fr).1 :: rest
            else claimedTable t sl h
              (claimStored s rest h a nf fr).1 :: rest).map idsOf).flatten)
            (ids ++ [idFor t.capacity sl])
          exact hmain.trans ((hperm2.cons (idFor t.capacity sl)).trans
            (@List.perm_append_comm _ [idFor t.capacity sl] ids))
        · rw [putHash_claim hts hp]
          show ∀ u ∈ (if g = true ∧ (t.size + 1) % U32 = t.capacity * 3 % U32 / 4 then
              freshTable (t.capacity * 2 % U32) ::
                claimedTable t sl h (claimStored s rest h a nf fr).1 :: rest
            else claimedTable t sl h
              (claimStored s rest h a nf fr).1 :: rest),
            ∀ sl2, sl2 < u.capacity → u.keys sl2 = 0 ∨ u.keys sl2 ∈ hs ++ [h]
          intro u hu sl2 hsl2
          have humem : u ∈ claimedTable t sl h
              (claimStored s rest h a nf fr).1 :: rest ∨
              u = freshTable (t.capacity * 2 % U32) := by
            by_cases hg : g = true ∧ (t.size + 1) % U32 = t.capacity * 3 % U32 / 4
            · rw [if_pos hg] at hu
              rcases List.mem_cons.mp hu with hc | hc
              · exact Or.inr hc
              · exact Or.inl hc
            · rw [if_neg hg] at hu
              exact Or.inl hu
          rcases humem with hc | hc
          · rcases List.mem_cons.mp hc with hc1 | hc2
            · subst hc1
              show (if sl2 = sl then h else t.keys sl2) = 0 ∨
                (if sl2 = sl then h else t.keys sl2) ∈ hs ++ [h]
              by_cases hss : sl2 = sl
              · rw [if_pos hss]
                exact Or.inr (List.mem_append.mpr (Or.inr (List.mem_cons_self _ _)))
              · rw [if_neg hss]
                rcases hkeys t (by rw [hts]; exact List.mem_cons_self _ _) sl2
                  (by exact hsl2) with hz2 | hmem
                · exact Or.inl hz2
                · exact Or.inr (List.mem_append.mpr (Or.inl hmem))
            · rcases hkeys u (by rw [hts]; exact List.mem_cons.mpr (Or.inr hc2))
                sl2 hsl2 with hz2 | hmem
              · exact Or.inl hz2
              · exact Or.inr (List.mem_append.mpr (Or.inl hmem))
          · subst hc
            exact Or.inl rfl
    · exfalso
      apply hidnz
      rw [putHash_overflow hts (by rw [hcap0]; exact probe_cap_zero t.keys h)]

theorem occPairs_fresh (c : Nat) : occPairs (freshTable c) = [] := by
  unfold occPairs freshTable
  simp

theorem C7_run (calls : List PutCall) :
    ∀ (s : CallTraceStorage) (hs ids : List Nat),
    InvC7 s hs ids →
    (calls.map hashOfCall).Nodup →
    (∀ h ∈ calls.map hashOfCall, h ∉ hs ∧ h ≠ 0) →
    (∀ i ∈ (runPuts s calls).2, i ≠ 0) →
    InvC7 (runPuts s calls).1 (hs ++ calls.map hashOfCall)
      (ids ++ (runPuts s calls).2) := by
  induction calls with
  | nil =>
    intro s hs ids hinv _ _ _
    show InvC7 s (hs ++ []) (ids ++ [])
    simpa using hinv
  | cons c cs ih =>
    intro s hs ids hinv hnd hfr hidnz
    have hmem0 : hashOfCall c ∈ (c :: cs).map hashOfCall := by
      simp
    have hid0 : (s.put c.growOk c.arenaOk c.num_frames c.frames).1 ≠ 0 := by
      apply hidnz
      rw [runPuts_cons]
      exact List.mem_cons_self _ _
    have hstep : InvC7 (s.put c.growOk c.arenaOk c.num_frames c.frames).2
        (hs ++ [hashOfCall c])
        (ids ++ [(s.put c.growOk c.arenaOk c.num_frames c.frames).1]) :=
      C7_step c.growOk c.arenaOk c.num_frames c.frames hinv
        (hfr _ hmem0).1 (hfr _ hmem0).2 hid0
    have hndcs : (cs.map hashOfCall).Nodup := by
      rw [List.map_cons] at hnd
      exact (List.nodup_cons.mp hnd).2
    have hne0 : hashOfCall c ∉ cs.map hashOfCall := by
      rw [List.map_cons] at hnd
      exact (List.nodup_cons.mp hnd).1
    have hfr2 : ∀ h ∈ cs.map hashOfCall, h ∉ hs ++ [hashOfCall c] ∧ h ≠ 0 := by
      intro h hm
      have hbase := hfr h (by rw [List.map_cons]; exact List.mem_cons.mpr (Or.inr hm))
      refine ⟨?_, hbase.2⟩
      intro hcontra
      rcases List.mem_append.mp hcontra with hc1 | hc2
      · exact hbase.1 hc1
      · rcases List.mem_cons.mp hc2 with hc3 | hc4
        · exact hne0 (hc3 ▸ hm)
        · cases hc4
    have hidnz2 : ∀ i ∈ (runPuts
        (s.put c.growOk c.arenaOk c.num_frames c.frames).2 cs).2, i ≠ 0 := by
      intro i hi
      apply hidnz
      rw [runPuts_cons]
      exact List.mem_cons.mpr (Or.inr hi)
    have hIH := ih (s.put c.growOk c.arenaOk c.num_frames c.frames).2
      (hs ++ [hashOfCall c])
      (ids ++ [(s.put c.growOk c.arenaOk c.num_frames c.frames).1])
      hstep hndcs hfr2 hidnz2
    rw [List.append_assoc, List.append_assoc, List.singleton_append,
      List.singleton_append] at hIH
    exact hIH

/-- C7: for every sequential execution of `put` calls whose traces have
pairwise distinct NON-ZERO hashes, all returning non-zero IDs, a subsequent
`collect` emits exactly one entry per call, and the keys of the output map
are a permutation of the IDs the puts returned. (The non-zero-hash proviso
is the correction: a trace hashing to 0 returns a non-zero ID without
storing anything, see the counterexample.) -/
theorem C7_amended (calls : List PutCall)
    (hnd : (calls.map hashOfCall).Nodup)
    (hnz : ∀ h ∈ calls.map hashOfCall, h ≠ 0)
    (hids : ∀ i ∈ (runPuts initialStorage calls).2, i ≠ 0) :
    ((runPuts initialStorage calls).1.collect).length = calls.length ∧
    List.Perm (((runPuts initialStorage calls).1.collect).map Prod.fst)
      ((runPuts initialStorage calls).2) := by
  have hinv0 : InvC7 initialStorage [] [] := by
    refine ⟨by decide, ?_, ?_⟩
    · show List.Perm (idsOf (freshTable INITIAL_CAPACITY) ++ []) []
      rw [idsOf_fresh]
      exact List.Perm.refl _
    · intro t ht sl hsl
      have hteq : t = freshTable INITIAL_CAPACITY := by
        rcases List.mem_cons.mp ht with hc | hc
        · exact hc
        · cases hc
      subst hteq
      exact Or.inl rfl
  have hrun := C7_run calls initialStorage [] [] hinv0 hnd
    (fun h hm => ⟨fun hx => absurd hx (List.not_mem_nil _), hnz h hm⟩) hids
  obtain ⟨hwfW, hperm, -⟩ := hrun
  rw [List.nil_append] at hperm
  have hcol := collect_eq_occ _ hwfW
  constructor
  · rw [hcol]
    have hlen1 : (((runPuts initialStorage calls).1.tables.map
        occPairs).flatten).length =
        (((runPuts initialStorage calls).1.tables.map idsOf).flatten).length := by
      rw [← flatten_map_fst]
      exact (List.length_map _ _).symm
    rw [hlen1, hperm.length_eq, runPuts_ids_length]
  · rw [hcol, flatten_map_fst]
    exact hperm

theorem C7_amended_witness :
    ((runPuts initialStorage [⟨true, true, 1, [5]⟩]).1.collect).length =
      ([(⟨true, true, 1, [5]⟩ : PutCall)]).length ∧
    List.Perm (((runPuts initialStorage [⟨true, true, 1, [5]⟩]).1.collect).map
      Prod.fst) ((runPuts initialStorage [⟨true, true, 1, [5]⟩]).2) :=
  C7_amended [⟨true, true, 1, [5]⟩] (by simp) (by decide) (by decide)

/-- Counterexample to the unconditional claim C7: a single `put` of a trace
whose hash is 0 (one frame `18145131812871523816`, a preimage of 0 under the
hash). The hashes of the N = 1 calls are pairwise distinct, the put returns
the non-zero ID 1, yet `collect` afterwards emits 0 entries, not 1, and its
key set does not contain the returned ID. -/
theorem C7_counterexample :
    (runPuts initialStorage [⟨true, true, 1, [18145131812871523816]⟩]).2 =
      [1] ∧ (1 : Nat) ≠ 0 ∧
    (runPuts initialStorage
      [⟨true, true, 1, [18145131812871523816]⟩]).1.collect = [] := by
  have hhash : calcHash 1 [18145131812871523816] = 0 := by decide
  have hprobe : probe (freshTable INITIAL_CAPACITY).keys
      (freshTable INITIAL_CAPACITY).capacity 0 = ProbeResult.hit 0 := rfl
  have hput : initialStorage.put true true 1 [18145131812871523816] =
      (1, initialStorage) := by
    show initialStorage.putHash (calcHash 1 [18145131812871523816])
      true true 1 [18145131812871523816] = (1, initialStorage)
    rw [hhash, putHash_hit rfl hprobe]
    rw [show idFor (freshTable INITIAL_CAPACITY).capacity 0 = 1 from by decide]
  refine ⟨?_, by decide, ?_⟩
  · show (initialStorage.put true true 1 [18145131812871523816]).1 ::
      (runPuts (initialStorage.put true true 1 [18145131812871523816]).2 []).2 =
      [1]
    rw [hput]
    rfl
  · show (runPuts
      (initialStorage.put true true 1 [18145131812871523816]).2 []).1.collect = []
    rw [hput]
    show initialStorage.collect = []
    rw [collect_eq_occ initialStorage (by decide)]
    show occPairs (freshTable INITIAL_CAPACITY) ++ [] = []
    rw [occPairs_fresh, List.nil_append]
